import Mathlib

/-!
Verification of the Transport-Planner destination indexing and
route-optimization engine (`destinations.js`).

JavaScript numbers are modelled as `ℚ` (all constants of the program are
small decimal literals), JS strings as `String` with character-level work on
`String.data : List Char`, `Map`/object dictionaries as insertion-ordered
association lists, and the fixed 100-slot bucket array of the hash map as a
function `ℕ → bucket`.  Fallible or potentially diverging loops take fuel and
return `Option`.
-/

namespace TPlan

/-- JS `String.prototype.toLowerCase`, restricted to the ASCII alphabet used
by the program's destination names. -/
def jsLower (s : String) : String := ⟨s.data.map Char.toLower⟩

/-- Destination record: the fields of the static table that the verified
operations (`searchDestinations`, `filterDestinations`, sorting) inspect. -/
structure Destination where
  name : String
  state : String
  type : String
  popularity : ℚ
  cost : ℚ
  activities : List String
deriving DecidableEq

/-- The `merge` helper of `mergeSort` (destinations.js line 290): repeatedly
takes the left head while `compareFunction(left, right) <= 0`, then appends
the remainders. -/
def merge (cmp : α → α → ℚ) : List α → List α → List α
  | [], r => r
  | a :: l, [] => a :: l
  | a :: l, b :: r =>
      if cmp a b ≤ 0 then a :: merge cmp l (b :: r) else b :: merge cmp (a :: l) r
termination_by l r => l.length + r.length

/-- `mergeSort` (destinations.js line 280): split at `Math.floor(n/2)`
(`slice(0, mid)` / `slice(mid)`), sort halves, merge. -/
def mergeSort (cmp : α → α → ℚ) (arr : List α) : List α :=
  if h : arr.length ≤ 1 then arr
  else
    merge cmp (mergeSort cmp (arr.take (arr.length / 2)))
      (mergeSort cmp (arr.drop (arr.length / 2)))
termination_by arr.length
decreasing_by
  · simp only [List.length_take]
    omega
  · simp only [List.length_drop]
    omega

/-- The popularity-descending comparator `(a, b) => b.popularity - a.popularity`
used by the search facade and the popularity sort. -/
def cmpPop (a b : Destination) : ℚ := b.popularity - a.popularity

theorem merge_perm (cmp : α → α → ℚ) (l r : List α) :
    (merge cmp l r).Perm (l ++ r) := by
  induction l, r using merge.induct cmp with
  | case1 r => simp [merge]
  | case2 a l => simp [merge]
  | case3 a l b r hc ih =>
      rw [merge, if_pos hc]
      exact (ih.cons a)
  | case4 a l b r hc ih =>
      rw [merge, if_neg hc]
      refine ((ih.cons b).trans ?_)
      exact (@List.perm_middle _ b (a :: l) r).symm

theorem mergeSort_perm (cmp : α → α → ℚ) (arr : List α) :
    (mergeSort cmp arr).Perm arr := by
  induction arr using mergeSort.induct cmp with
  | case1 arr h => rw [mergeSort, dif_pos h]
  | case2 arr h ih1 ih2 =>
      rw [mergeSort, dif_neg h]
      refine ((merge_perm cmp _ _).trans ?_)
      refine ((ih1.append ih2).trans ?_)
      rw [List.take_append_drop]

/-- A comparator whose "take left" test `cmp a b ≤ 0` is total and
transitive merges sorted lists into a sorted list. -/
theorem merge_sorted (cmp : α → α → ℚ)
    (htot : ∀ a b, ¬ cmp a b ≤ 0 → cmp b a ≤ 0)
    (htrans : ∀ a b c, cmp a b ≤ 0 → cmp b c ≤ 0 → cmp a c ≤ 0)
    (l r : List α) (hl : l.Sorted (fun a b => cmp a b ≤ 0))
    (hr : r.Sorted (fun a b => cmp a b ≤ 0)) :
    (merge cmp l r).Sorted (fun a b => cmp a b ≤ 0) := by
  induction l, r using merge.induct cmp with
  | case1 r => simpa [merge]
  | case2 a l => simpa [merge] using hl
  | case3 a l b r hc ih =>
      rw [merge, if_pos hc]
      rw [List.sorted_cons] at hl ⊢
      refine ⟨?_, ih hl.2 hr⟩
      intro y hy
      have := (merge_perm cmp l (b :: r)).mem_iff.mp hy
      rcases List.mem_append.mp this with h1 | h2
      · exact hl.1 y h1
      · rcases List.mem_cons.mp h2 with rfl | h3
        · exact hc
        · exact htrans a b y hc ((List.sorted_cons.mp hr).1 y h3)
  | case4 a l b r hc ih =>
      rw [merge, if_neg hc]
      rw [List.sorted_cons] at hr ⊢
      refine ⟨?_, ih hl hr.2⟩
      intro y hy
      have := (merge_perm cmp (a :: l) r).mem_iff.mp hy
      rcases List.mem_append.mp this with h1 | h2
      · rcases List.mem_cons.mp h1 with rfl | h3
        · exact htot _ _ hc
        · exact htrans b a y (htot a b hc) ((List.sorted_cons.mp hl).1 y h3)
      · exact hr.1 y h2

theorem mergeSort_sorted (cmp : α → α → ℚ)
    (htot : ∀ a b, ¬ cmp a b ≤ 0 → cmp b a ≤ 0)
    (htrans : ∀ a b c, cmp a b ≤ 0 → cmp b c ≤ 0 → cmp a c ≤ 0)
    (arr : List α) :
    (mergeSort cmp arr).Sorted (fun a b => cmp a b ≤ 0) := by
  induction arr using mergeSort.induct cmp with
  | case1 arr h =>
      rw [mergeSort, dif_pos h]
      rcases arr with _ | ⟨x, _ | ⟨y, t⟩⟩
      · simp
      · simp
      · simp at h
  | case2 arr h ih1 ih2 =>
      rw [mergeSort, dif_neg h]
      exact merge_sorted cmp htot htrans _ _ ih1 ih2

theorem cmpPop_tot : ∀ a b : Destination, ¬ cmpPop a b ≤ 0 → cmpPop b a ≤ 0 := by
  intro a b h
  simp only [cmpPop] at *
  linarith

theorem cmpPop_trans : ∀ a b c : Destination,
    cmpPop a b ≤ 0 → cmpPop b c ≤ 0 → cmpPop a c ≤ 0 := by
  intro a b c h1 h2
  simp only [cmpPop] at *
  linarith

/-- Stability of `merge` for the popularity comparator: filtering the merge of
two popularity-sorted lists to one popularity class concatenates the two
filtered inputs in order (left entries first). -/
theorem merge_filter_pop (l r : List Destination)
    (hl : l.Sorted (fun a b => cmpPop a b ≤ 0)) (p : ℚ) :
    (merge cmpPop l r).filter (fun d => decide (d.popularity = p)) =
      l.filter (fun d => decide (d.popularity = p)) ++
        r.filter (fun d => decide (d.popularity = p)) := by
  induction l, r using merge.induct cmpPop with
  | case1 r => simp [merge]
  | case2 a l => simp [merge]
  | case3 a l b r hc ih =>
      rw [merge, if_pos hc]
      rw [List.sorted_cons] at hl
      rw [List.filter_cons, List.filter_cons, ih hl.2 ]
      by_cases hp : a.popularity = p <;> simp [hp]
  | case4 a l b r hc ih =>
      rw [merge, if_neg hc]
      rw [List.filter_cons (x := b), List.filter_cons (x := b), ih hl]
      by_cases hp : b.popularity = p
      · have hab : a.popularity < b.popularity := by
          simp only [cmpPop] at hc
          linarith
        have hnil : (a :: l).filter (fun d => decide (d.popularity = p)) = [] := by
          rw [List.filter_eq_nil_iff]
          intro x hx
          have hxa : x.popularity ≤ a.popularity := by
            rcases List.mem_cons.mp hx with rfl | hx'
            · exact le_refl _
            · have := (List.sorted_cons.mp hl).1 x hx'
              simp only [cmpPop] at this
              linarith
          simp only [decide_eq_true_eq]
          intro h
          linarith
        rw [hnil]
        simp [hp]
      · simp [hp]

/-- Stability of `mergeSort` with the popularity comparator: each popularity
class of the output is exactly, and in the same order as, the corresponding
class of the input. -/
theorem mergeSort_filter_pop (arr : List Destination) (p : ℚ) :
    (mergeSort cmpPop arr).filter (fun d => decide (d.popularity = p)) =
      arr.filter (fun d => decide (d.popularity = p)) := by
  induction arr using mergeSort.induct cmpPop with
  | case1 arr h => rw [mergeSort, dif_pos h]
  | case2 arr h ih1 ih2 =>
      rw [mergeSort, dif_neg h]
      rw [merge_filter_pop _ _ (mergeSort_sorted cmpPop cmpPop_tot cmpPop_trans _) p]
      rw [ih1, ih2, ← List.filter_append, List.take_append_drop]

/-- C8: the popularity-descending merge sort is deterministic and stable:
the output is a popularity-non-increasing permutation of the input, each
equal-popularity class keeps its original relative order, and two inputs that
are permutations of each other with pairwise-distinct popularities (e.g. an
already-sorted list and a reverse-sorted list of the same destinations) sort
to the identical output list. -/
theorem C8_mergeSort_stable (l : List Destination) :
    (mergeSort cmpPop l).Perm l ∧
    (mergeSort cmpPop l).Sorted (fun a b => b.popularity ≤ a.popularity) ∧
    (∀ p : ℚ, (mergeSort cmpPop l).filter (fun d => decide (d.popularity = p)) =
      l.filter (fun d => decide (d.popularity = p))) ∧
    (∀ l' : List Destination, l.Perm l' →
      l.Pairwise (fun a b => a.popularity ≠ b.popularity) →
      mergeSort cmpPop l = mergeSort cmpPop l') := by
  refine ⟨mergeSort_perm cmpPop l, ?_, fun p => mergeSort_filter_pop l p, ?_⟩
  · have h := mergeSort_sorted cmpPop cmpPop_tot cmpPop_trans l
    refine h.imp ?_
    intro a b hab
    simp only [cmpPop] at hab
    linarith
  · intro l' hperm hdist
    have s1 := mergeSort_sorted cmpPop cmpPop_tot cmpPop_trans l
    have s2 := mergeSort_sorted cmpPop cmpPop_tot cmpPop_trans l'
    have p1 := mergeSort_perm cmpPop l
    have p2 := mergeSort_perm cmpPop l'
    have hd1 : (mergeSort cmpPop l).Pairwise
        (fun a b => a.popularity ≠ b.popularity) := by
      refine (List.Perm.pairwise_iff ?_ p1).mpr hdist
      intro a b h
      exact h.symm
    have hd2 : (mergeSort cmpPop l').Pairwise
        (fun a b => a.popularity ≠ b.popularity) := by
      refine (List.Perm.pairwise_iff ?_ (p2.trans hperm.symm)).mpr hdist
      intro a b h
      exact h.symm
    have st1 : (mergeSort cmpPop l).Sorted
        (fun a b : Destination => b.popularity < a.popularity) := by
      have hle := mergeSort_sorted cmpPop cmpPop_tot cmpPop_trans l
      refine (List.Pairwise.and hle hd1).imp ?_
      intro a b hab
      rcases hab with ⟨h1, h2⟩
      simp only [cmpPop] at h1
      rcases lt_or_eq_of_le (by linarith : b.popularity ≤ a.popularity) with h | h
      · exact h
      · exact absurd h.symm h2
    have st2 : (mergeSort cmpPop l').Sorted
        (fun a b : Destination => b.popularity < a.popularity) := by
      have hle := mergeSort_sorted cmpPop cmpPop_tot cmpPop_trans l'
      refine (List.Pairwise.and hle hd2).imp ?_
      intro a b hab
      rcases hab with ⟨h1, h2⟩
      simp only [cmpPop] at h1
      rcases lt_or_eq_of_le (by linarith : b.popularity ≤ a.popularity) with h | h
      · exact h
      · exact absurd h.symm h2
    haveI : IsAntisymm Destination (fun a b : Destination => b.popularity < a.popularity) :=
      ⟨fun a b h1 h2 => absurd (lt_trans h1 h2) (lt_irrefl _)⟩
    exact List.eq_of_perm_of_sorted (p1.trans (hperm.trans p2.symm)) st1 st2

/-- Concrete sample destinations used to instantiate hypothesis-bearing
theorems at closed inputs. -/
def dGoa : Destination := ⟨"Goa", "Goa", "Beach", 95, 12000, ["Beach hopping"]⟩

def dAgra : Destination := ⟨"Agra", "Uttar Pradesh", "Heritage", 98, 10000, ["Taj Mahal"]⟩

def dJaipur : Destination := ⟨"Jaipur", "Rajasthan", "Heritage", 90, 11000, ["City Palace"]⟩

set_option maxRecDepth 8000 in
theorem C8_mergeSort_stable_witness :
    (mergeSort cmpPop [dAgra, dGoa, dJaipur]).Perm [dAgra, dGoa, dJaipur] ∧
    (mergeSort cmpPop [dAgra, dGoa, dJaipur]).Sorted
      (fun a b => b.popularity ≤ a.popularity) ∧
    (mergeSort cmpPop [dAgra, dGoa, dJaipur]).filter
        (fun d => decide (d.popularity = 95)) =
      [dAgra, dGoa, dJaipur].filter (fun d => decide (d.popularity = 95)) ∧
    mergeSort cmpPop [dAgra, dGoa, dJaipur] = mergeSort cmpPop [dJaipur, dGoa, dAgra] := by
  have h := C8_mergeSort_stable [dAgra, dGoa, dJaipur]
  refine ⟨h.1, h.2.1, h.2.2.1 95, h.2.2.2 [dJaipur, dGoa, dAgra] ?_ ?_⟩
  · decide
  · decide

/-- The JS `startsWith` test on character lists: does the first list begin
with the second. -/
def startsWithL : List Char → List Char → Bool
  | _, [] => true
  | [], _ :: _ => false
  | h :: t, n :: m => h == n && startsWithL t m

/-- JS `String.prototype.includes` on character lists: does the first list
contain the second as a contiguous substring. -/
def containsSub : List Char → List Char → Bool
  | [], n => n.isEmpty
  | h :: t, n => startsWithL (h :: t) n || containsSub t n

/-- The leading-run counting loop of `simpleStringMatch`: characters compared
pairwise from the front, stopping at the first mismatch or at the end of the
shorter string. -/
def commonStartLen : List Char → List Char → ℕ
  | a :: s, b :: t => if a = b then commonStartLen s t + 1 else 0
  | _, _ => 0

/-- `simpleStringMatch` (destinations.js line 326): returns 0 ("perfect
match") when either lowercased string contains the other as a substring, and
otherwise the length of the longest shared leading-character run. -/
def simpleStringMatch (str1 str2 : String) : ℚ :=
  let s1 := jsLower str1
  let s2 := jsLower str2
  if containsSub s1.data s2.data || containsSub s2.data s1.data then 0
  else (commonStartLen s1.data s2.data : ℚ)

/-- Insertion-ordered association update, as a JS object property write or
`Map.set`: overwrite the first matching key in place, else append. -/
def assocSet [BEq κ] (k : κ) (v : β) : List (κ × β) → List (κ × β)
  | [] => [(k, v)]
  | (k', v') :: t => if k' == k then (k, v) :: t else (k', v') :: assocSet k v t

/-- Trie node (destinations.js line 6): insertion-ordered child map keyed by
single characters, end-of-word flag, and the payload stored at end nodes. -/
inductive TrieNode (α : Type) where
  | mk (children : List (Char × TrieNode α)) (isEndOfWord : Bool)
      (destinationData : Option α)

def TrieNode.children : TrieNode α → List (Char × TrieNode α)
  | .mk c _ _ => c

def TrieNode.isEndOfWord : TrieNode α → Bool
  | .mk _ e _ => e

def TrieNode.destinationData : TrieNode α → Option α
  | .mk _ _ d => d

def emptyTrieNode : TrieNode α := .mk [] false none

/-- The character-level loop of `Trie.insert`: walk the (already lowercased)
word, creating missing children, and mark/overwrite the final node. -/
def insertWord : TrieNode α → List Char → α → TrieNode α
  | n, [], d => .mk n.children true (some d)
  | n, c :: cs, d =>
      let child := match List.lookup c n.children with
        | some t => t
        | none => emptyTrieNode
      .mk (assocSet c (insertWord child cs d) n.children) n.isEndOfWord n.destinationData

/-- `Trie.insert` (destinations.js line 20): keys are lowercased before the walk. -/
def trieInsert (t : TrieNode α) (destination : String) (data : α) : TrieNode α :=
  insertWord t (jsLower destination).data data

/-- The navigation loop of `Trie.searchWithPrefix`: follow the given characters,
failing if any child is absent. -/
def descend : TrieNode α → List Char → Option (TrieNode α)
  | n, [] => some n
  | n, c :: cs =>
      match List.lookup c n.children with
      | none => none
      | some t => descend t cs

/-- `Trie._dfsCollect` (destinations.js line 54): emit the current node's
entry if it ends a word, then recurse into the children in insertion order. -/
def dfsCollect : TrieNode α → List Char → List (List Char × Option α)
  | .mk cs e d, pre =>
      (if e then [(pre, d)] else []) ++
        cs.attach.flatMap (fun x => dfsCollect x.1.2 (pre ++ [x.1.1]))
termination_by t _ => sizeOf t
decreasing_by
  have hmem := List.sizeOf_lt_of_mem x.2
  rcases x with ⟨⟨c, t⟩, hx⟩
  simp only [Prod.mk.sizeOf_spec, TrieNode.mk.sizeOf_spec] at hmem ⊢
  omega

/-- `Trie.searchWithPrefix` (destinations.js line 36): lowercase the prefix,
navigate to it, and DFS-collect every terminal descendant. -/
def prefixSearch (t : TrieNode α) (pre : String) : List (List Char × Option α) :=
  let p := (jsLower pre).data
  match descend t p with
  | none => []
  | some n => dfsCollect n p

/-- `DestinationHashMap._hash` (destinations.js line 240): running sum of
character codes weighted by position, reduced modulo the bucket count 100 at
every step. -/
def hmHash (key : List Char) : ℕ :=
  key.enum.foldl (fun h p => (h + p.2.toNat * p.1) % 100) 0

/-- The 100-slot bucket array, modelled as a total function from slot index
to chaining bucket; an untouched slot behaves as an empty bucket. -/
def HashBuckets (α : Type) := ℕ → List (String × α)

def hmEmpty : HashBuckets α := fun _ => []

/-- `DestinationHashMap.set` (destinations.js line 248): hash the lowercased
key, then overwrite the first pair with that key in the bucket or append. -/
def hmSet (m : HashBuckets α) (key : String) (value : α) : HashBuckets α :=
  let k := jsLower key
  let idx := hmHash k.data
  fun j => if j = idx then assocSet k value (m idx) else m j

/-- `DestinationHashMap.get` (destinations.js line 265): hash the lowercased
key and scan its bucket for the first pair with that key. -/
def hmGet (m : HashBuckets α) (key : String) : Option α :=
  let k := jsLower key
  List.lookup k (m (hmHash k.data))

/-- The trie built by `initializeDataStructures`: every entry inserted in
table order. -/
def buildTrie (entries : List (String × α)) : TrieNode α :=
  entries.foldl (fun t p => trieInsert t p.1 p.2) emptyTrieNode

/-- The hash map built by `initializeDataStructures`: every entry inserted in
table order. -/
def buildHM (entries : List (String × α)) : HashBuckets α :=
  entries.foldl (fun m p => hmSet m p.1 p.2) hmEmpty

theorem lookup_assocSet [BEq κ] [LawfulBEq κ] (k q : κ) (v : β) (l : List (κ × β)) :
    List.lookup q (assocSet k v l) =
      if q == k then some v else List.lookup q l := by
  induction l with
  | nil =>
      simp only [assocSet, List.lookup]
      cases hq : q == k <;> simp [hq]
  | cons p t ih =>
      rcases p with ⟨k', v'⟩
      rw [assocSet]
      cases hk : k' == k
      · simp only [Bool.false_eq_true, if_false, List.lookup_cons]
        cases hq : q == k'
        · simp only [ih]
        · have : q = k' := eq_of_beq hq
          subst this
          simp [hk]
      · simp only [if_true, List.lookup_cons]
        have hx : k' = k := eq_of_beq hk
        subst hx
        cases hq : q == k' <;> simp [hq]

theorem lookup_mem [BEq κ] [LawfulBEq κ] {k : κ} {v : β} :
    ∀ {l : List (κ × β)}, List.lookup k l = some v → (k, v) ∈ l := by
  intro l
  induction l with
  | nil => intro h; simp [List.lookup] at h
  | cons p t ih =>
      rcases p with ⟨k', v'⟩
      intro h
      rw [List.lookup_cons] at h
      by_cases hk : k == k'
      · have hk' : k = k' := eq_of_beq hk
        rw [hk] at h
        simp at h
        subst hk'
        subst h
        exact List.mem_cons_self _ _
      · rw [Bool.not_eq_true] at hk
        rw [hk] at h
        exact List.mem_cons_of_mem _ (ih h)

theorem hmGet_hmSet (m : HashBuckets α) (key q : String) (v : α) :
    hmGet (hmSet m key v) q =
      if jsLower q = jsLower key then some v else hmGet m q := by
  by_cases heq : jsLower q = jsLower key
  · rw [if_pos heq]
    show List.lookup (jsLower q) (hmSet m key v (hmHash (jsLower q).data)) = some v
    rw [heq]
    show List.lookup (jsLower key)
        (if hmHash (jsLower key).data = hmHash (jsLower key).data
          then assocSet (jsLower key) v (m (hmHash (jsLower key).data))
          else m (hmHash (jsLower key).data)) = some v
    rw [if_pos rfl, lookup_assocSet]
    simp
  · rw [if_neg heq]
    show List.lookup (jsLower q) (hmSet m key v (hmHash (jsLower q).data)) =
      hmGet m q
    by_cases hh : hmHash (jsLower q).data = hmHash (jsLower key).data
    · show List.lookup (jsLower q)
          (if hmHash (jsLower q).data = hmHash (jsLower key).data
            then assocSet (jsLower key) v (m (hmHash (jsLower key).data))
            else m (hmHash (jsLower q).data)) = hmGet m q
      rw [if_pos hh, lookup_assocSet]
      have : ¬ (jsLower q == jsLower key) = true := by
        simpa using heq
      rw [if_neg this]
      show _ = List.lookup (jsLower q) (m (hmHash (jsLower q).data))
      rw [hh]
    · show List.lookup (jsLower q)
          (if hmHash (jsLower q).data = hmHash (jsLower key).data
            then assocSet (jsLower key) v (m (hmHash (jsLower key).data))
            else m (hmHash (jsLower q).data)) = hmGet m q
      rw [if_neg hh]
      rfl

theorem hmGet_build (entries : List (String × α))
    (hdist : (entries.map (fun p => jsLower p.1)).Nodup)
    (n : String) (d : α) (hmem : (n, d) ∈ entries)
    (q : String) (hq : jsLower q = jsLower n) :
    hmGet (buildHM entries) q = some d := by
  induction entries using List.reverseRecOn with
  | nil => simp at hmem
  | append_singleton l e ih =>
      rw [buildHM, List.foldl_append] at *
      simp only [List.foldl_cons, List.foldl_nil]
      rw [List.map_append, List.nodup_append] at hdist
      rcases List.mem_append.mp hmem with hl | he
      · have hne : jsLower n ≠ jsLower e.1 := by
          intro hcontra
          exact hdist.2.2 (List.mem_map_of_mem _ hl) (by simp [hcontra])
        rw [hmGet_hmSet]
        rw [if_neg (by rw [hq]; exact hne)]
        exact ih hdist.1 hl
      · have he' : (n, d) = e := by simpa using he
        subst he'
        rw [hmGet_hmSet, if_pos hq]

/-- The terminal payload the trie associates to a whole word: the data at the
node reached by the word, provided that node is marked end-of-word. -/
def wordData (t : TrieNode α) (w : List Char) : Option α :=
  match descend t w with
  | none => none
  | some n => if n.isEndOfWord then n.destinationData else none

theorem wordData_empty (w : List Char) :
    wordData (emptyTrieNode : TrieNode α) w = none := by
  cases w with
  | nil => rfl
  | cons c cs => rfl

theorem wordData_insertWord_self (w : List Char) (d : α) :
    ∀ t : TrieNode α, wordData (insertWord t w d) w = some d := by
  induction w with
  | nil =>
      intro t
      rfl
  | cons c cs ih =>
      intro t
      show wordData (TrieNode.mk (assocSet c _ t.children) t.isEndOfWord
        t.destinationData) (c :: cs) = some d
      rw [wordData]
      show (match
        (match List.lookup c (assocSet c _ t.children) with
          | none => none
          | some t' => descend t' cs) with
        | none => none
        | some n => if n.isEndOfWord then n.destinationData else none) = some d
      rw [lookup_assocSet]
      simp only [beq_self_eq_true, if_true]
      exact ih _

theorem wordData_insertWord_ne (w : List Char) (d : α) :
    ∀ (t : TrieNode α) (w' : List Char), w' ≠ w →
      wordData (insertWord t w d) w' = wordData t w' := by
  induction w with
  | nil =>
      intro t w' hne
      cases w' with
      | nil => exact absurd rfl hne
      | cons c' cs' => rfl
  | cons c cs ih =>
      intro t w' hne
      cases w' with
      | nil => rfl
      | cons c' cs' =>
          show wordData (TrieNode.mk (assocSet c _ t.children) t.isEndOfWord
            t.destinationData) (c' :: cs') = wordData t (c' :: cs')
          rw [wordData, wordData]
          show (match
            (match List.lookup c' (assocSet c (insertWord _ cs d) t.children) with
              | none => none
              | some t' => descend t' cs') with
            | none => none
            | some n => if n.isEndOfWord then n.destinationData else none) =
            (match
              (match List.lookup c' t.children with
                | none => none
                | some t' => descend t' cs') with
              | none => none
              | some n => if n.isEndOfWord then n.destinationData else none)
          rw [lookup_assocSet]
          by_cases hc : c' = c
          · subst hc
            simp only [beq_self_eq_true, if_true]
            have hcs : cs' ≠ cs := by
              intro h
              exact hne (by rw [h])
            cases hl : List.lookup c' t.children with
            | none =>
                have h1 : (match descend (insertWord emptyTrieNode cs d) cs' with
                    | none => none
                    | some n => if n.isEndOfWord then n.destinationData else none) =
                    wordData (insertWord emptyTrieNode cs d) cs' := rfl
                rw [h1, ih _ _ hcs, wordData_empty]
            | some t' =>
                have h1 : (match descend (insertWord t' cs d) cs' with
                    | none => none
                    | some n => if n.isEndOfWord then n.destinationData else none) =
                    wordData (insertWord t' cs d) cs' := rfl
                rw [h1, ih _ _ hcs]
                rfl
          · rw [if_neg (by simpa using hc)]

theorem wordData_buildTrie (entries : List (String × α))
    (hdist : (entries.map (fun p => jsLower p.1)).Nodup)
    (n : String) (d : α) (hmem : (n, d) ∈ entries) :
    wordData (buildTrie entries) (jsLower n).data = some d := by
  induction entries using List.reverseRecOn with
  | nil => simp at hmem
  | append_singleton l e ih =>
      rw [buildTrie, List.foldl_append] at *
      simp only [List.foldl_cons, List.foldl_nil]
      rw [List.map_append, List.nodup_append] at hdist
      rcases List.mem_append.mp hmem with hl | he
      · have hne : (jsLower n).data ≠ (jsLower e.1).data := by
          intro hcontra
          have : jsLower n = jsLower e.1 := by
            cases hg : jsLower n
            cases hg2 : jsLower e.1
            rw [hg, hg2] at hcontra
            exact congrArg String.mk hcontra
          exact hdist.2.2 (List.mem_map_of_mem _ hl) (by simp [this])
        rw [trieInsert, wordData_insertWord_ne _ _ _ _ hne]
        exact ih hdist.1 hl
      · have he' : (n, d) = e := by simpa using he
        subst he'
        rw [trieInsert]
        exact wordData_insertWord_self _ _ _

theorem descend_append (p s : List Char) :
    ∀ t : TrieNode α, descend t (p ++ s) =
      match descend t p with
      | none => none
      | some n => descend n s := by
  induction p with
  | nil => intro t; rfl
  | cons c cs ih =>
      intro t
      simp only [List.cons_append, descend]
      cases hl : List.lookup c t.children with
      | none => rfl
      | some t' => exact ih t'

theorem dfs_complete (s : List Char) :
    ∀ (t : TrieNode α) (p : List Char) (n : TrieNode α),
      descend t s = some n → n.isEndOfWord = true →
      (p ++ s, n.destinationData) ∈ dfsCollect t p := by
  induction s with
  | nil =>
      intro t p n hd he
      have hnt : t = n := by
        simpa [descend] using hd
      subst hnt
      rcases t with ⟨cs, e, d⟩
      rw [dfsCollect]
      refine List.mem_append.mpr (Or.inl ?_)
      rw [TrieNode.isEndOfWord] at he
      rw [he]
      simp [TrieNode.destinationData]
  | cons c cs ih =>
      intro t p n hd he
      rcases t with ⟨children, e, dat⟩
      rw [descend] at hd
      cases hl : List.lookup c (TrieNode.mk children e dat).children with
      | none => rw [hl] at hd; simp at hd
      | some t' =>
          rw [hl] at hd
          rw [TrieNode.children] at hl
          rw [dfsCollect]
          refine List.mem_append.mpr (Or.inr ?_)
          refine List.mem_flatMap.mpr ?_
          refine ⟨⟨(c, t'), lookup_mem hl⟩, List.mem_attach _ _, ?_⟩
          have := ih t' (p ++ [c]) n hd he
          simpa using this

/-- Every whole word stored in the trie is reported, with its payload, by a
prefix search for any leading fragment of that word. -/
theorem prefixSearch_complete (t : TrieNode α) (p : String) (s : List Char)
    (w : List Char) (hw : (jsLower p).data ++ s = w) (d : α)
    (hwd : wordData t w = some d) :
    (w, some d) ∈ prefixSearch t p := by
  rw [wordData] at hwd
  cases hd : descend t w with
  | none => rw [hd] at hwd; simp at hwd
  | some nEnd =>
      rw [hd] at hwd
      have hwd : (if nEnd.isEndOfWord = true then nEnd.destinationData
        else none) = some d := hwd
      by_cases he : nEnd.isEndOfWord = true
      · rw [if_pos he] at hwd
        subst hw
        rw [descend_append] at hd
        cases hmid : descend t (jsLower p).data with
        | none => rw [hmid] at hd; simp at hd
        | some mid =>
            rw [hmid] at hd
            rw [prefixSearch]
            show ((jsLower p).data ++ s, some d) ∈
              match descend t (jsLower p).data with
              | none => []
              | some n => dfsCollect n (jsLower p).data
            rw [hmid]
            have := dfs_complete s mid (jsLower p).data nEnd hd he
            rw [hwd] at this
            exact this
      · rw [if_neg he] at hwd
        simp at hwd

/-- C4: for every destination table whose lowercased names are distinct (as
the static table's are) and every entry (name, D) of it, the initialization
inserts make exact hash-map lookup under any letter-casing of the name return
exactly D, and trie prefix search under any letter-cased prefix of the name
list an entry carrying D as payload. -/
theorem C4_exact_and_prefix_lookup {α : Type} (entries : List (String × α))
    (hdist : (entries.map (fun p => jsLower p.1)).Nodup)
    (n : String) (d : α) (hmem : (n, d) ∈ entries)
    (q : String) (hq : jsLower q = jsLower n)
    (p : String) (s : List Char)
    (hp : (jsLower p).data ++ s = (jsLower n).data) :
    hmGet (buildHM entries) q = some d ∧
    ((jsLower n).data, some d) ∈ prefixSearch (buildTrie entries) p := by
  refine ⟨hmGet_build entries hdist n d hmem q hq, ?_⟩
  exact prefixSearch_complete _ p s _ hp d (wordData_buildTrie entries hdist n d hmem)

theorem C4_exact_and_prefix_lookup_witness :
    hmGet (buildHM [("Goa", 1), ("Agra", 2)]) "GOA" = some 1 ∧
    ((jsLower "Goa").data, some 1) ∈
      prefixSearch (buildTrie [("Goa", 1), ("Agra", 2)]) "Go" := by
  refine C4_exact_and_prefix_lookup [("Goa", 1), ("Agra", 2)] ?_ "Goa" 1 ?_
    "GOA" ?_ "Go" ['a'] ?_
  · with_unfolding_all decide
  · with_unfolding_all decide
  · with_unfolding_all decide
  · with_unfolding_all decide

/-- JS `Set.prototype.add` over the merged search results. The set holds
destination records compared by identity; the static table's records are
structurally distinct, so structural equality models identity here. -/
def addUnique [DecidableEq β] (rs : List β) (x : β) : List β :=
  if x ∈ rs then rs else rs ++ [x]

/-- `searchDestinations` (destinations.js line 1269) over an arbitrary
destination table: (1) exact hash-map hit on the query; (2) trie prefix hits;
(3) fuzzy scan keeping destinations whose `simpleStringMatch` similarity
against the query is at least 2; the merged set is then popularity-sorted and
truncated to `limit`. -/
def searchDestinations (data : List Destination) (query : String)
    (limit : ℕ) : List Destination :=
  if query.data.length < 1 then [] else
  let entries := data.map (fun d => (d.name, d))
  let results : List Destination :=
    match hmGet (buildHM entries) query with
    | some m => [m]
    | none => []
  let results := (prefixSearch (buildTrie entries) query).foldl
    (fun rs m =>
      match m.2 with
      | some dd => addUnique rs dd
      | none => rs) results
  let fuzzy := data.filter (fun dest =>
    (2 : ℚ) ≤ simpleStringMatch (jsLower query) (jsLower dest.name))
  let results := fuzzy.foldl (fun rs dd => addUnique rs dd) results
  (mergeSort cmpPop results).take limit

/-- C3 evaluated at the failing input: for the query "oa" and the destination
"Goa", the lowercased name contains the query as a proper inner substring, so
`simpleStringMatch` returns 0 (labelled "perfect match" in the source), yet
the fuzzy filter `similarity >= 2` rejects it and the search over a table
holding Goa returns nothing. -/
theorem C3_substring_match_dropped :
    containsSub (jsLower "Goa").data (jsLower "oa").data = true ∧
    simpleStringMatch (jsLower "oa") (jsLower "Goa") = 0 ∧
    ¬ ((2 : ℚ) ≤ simpleStringMatch (jsLower "oa") (jsLower "Goa")) ∧
    searchDestinations [dGoa] "oa" 10 = [] := by
  with_unfolding_all decide

/-- The filter criteria object of `filterDestinations`; an absent JS property
is `none`. -/
structure Criteria where
  type : Option String
  state : Option String
  maxCost : Option ℚ
  minPopularity : Option ℚ
  sortBy : Option String

/-- A simple model of JS `String.prototype.localeCompare` for the ASCII names
of the table: lexicographic three-way comparison. -/
def localeCompare (a b : String) : ℚ :=
  if a < b then -1 else if b < a then 1 else 0

/-- The comparator selected by `criteria.sortBy` (destinations.js line 1358). -/
def cmpOfSortBy (sb : String) (a b : Destination) : ℚ :=
  if sb = "popularity" then b.popularity - a.popularity
  else if sb = "cost" then a.cost - b.cost
  else if sb = "name" then localeCompare a.name b.name
  else 0

/-- The `if (criteria.type)` stage of `filterDestinations`: applied only when
the field is truthy in JS, i.e. present and nonempty. -/
def typeStage (o : Option String) (f : List Destination) : List Destination :=
  match o with
  | some t => if t = "" then f
      else f.filter (fun d => jsLower d.type == jsLower t)
  | none => f

/-- The `if (criteria.state)` stage of `filterDestinations`. -/
def stateStage (o : Option String) (f : List Destination) : List Destination :=
  match o with
  | some s => if s = "" then f
      else f.filter (fun d => jsLower d.state == jsLower s)
  | none => f

/-- The `if (criteria.maxCost)` stage of `filterDestinations`: a present zero
is falsy in JS and skips the predicate. -/
def costStage (o : Option ℚ) (f : List Destination) : List Destination :=
  match o with
  | some mc => if mc = 0 then f else f.filter (fun d => decide (d.cost ≤ mc))
  | none => f

/-- The `if (criteria.minPopularity)` stage of `filterDestinations`. -/
def popStage (o : Option ℚ) (f : List Destination) : List Destination :=
  match o with
  | some mp => if mp = 0 then f
      else f.filter (fun d => decide (mp ≤ d.popularity))
  | none => f

/-- The `if (criteria.sortBy)` stage of `filterDestinations`. -/
def sortStage (o : Option String) (f : List Destination) : List Destination :=
  match o with
  | some sb => if sb = "" then f else mergeSort (cmpOfSortBy sb) f
  | none => f

/-- `filterDestinations` (destinations.js line 1338): successive truthiness
guarded filters for type, state, max cost and min popularity, then the
optional sort. -/
def filterDestinations (data : List Destination) (c : Criteria) :
    List Destination :=
  sortStage c.sortBy
    (popStage c.minPopularity
      (costStage c.maxCost (stateStage c.state (typeStage c.type data))))

/-- Truthiness-guarded predicate of the type stage. -/
def typeOk (o : Option String) (d : Destination) : Bool :=
  match o with
  | some t => if t = "" then true else jsLower d.type == jsLower t
  | none => true

/-- Truthiness-guarded predicate of the state stage. -/
def stateOk (o : Option String) (d : Destination) : Bool :=
  match o with
  | some s => if s = "" then true else jsLower d.state == jsLower s
  | none => true

/-- Truthiness-guarded predicate of the max-cost stage. -/
def costOk (o : Option ℚ) (d : Destination) : Bool :=
  match o with
  | some mc => if mc = 0 then true else decide (d.cost ≤ mc)
  | none => true

/-- Truthiness-guarded predicate of the min-popularity stage. -/
def popOk (o : Option ℚ) (d : Destination) : Bool :=
  match o with
  | some mp => if mp = 0 then true else decide (mp ≤ d.popularity)
  | none => true

/-- The conjunction of the truthy criteria, in application order. -/
def presentTruthyPred (c : Criteria) (d : Destination) : Bool :=
  typeOk c.type d && stateOk c.state d && costOk c.maxCost d && popOk c.minPopularity d

theorem typeStage_eq (o : Option String) (f : List Destination) :
    typeStage o f = f.filter (fun d => typeOk o d) := by
  cases o with
  | none => simp [typeStage, typeOk]
  | some t =>
      by_cases ht : t = "" <;> simp [typeStage, typeOk, ht]

theorem stateStage_eq (o : Option String) (f : List Destination) :
    stateStage o f = f.filter (fun d => stateOk o d) := by
  cases o with
  | none => simp [stateStage, stateOk]
  | some s =>
      by_cases hs : s = "" <;> simp [stateStage, stateOk, hs]

theorem costStage_eq (o : Option ℚ) (f : List Destination) :
    costStage o f = f.filter (fun d => costOk o d) := by
  cases o with
  | none => simp [costStage, costOk]
  | some mc =>
      by_cases hm : mc = 0 <;> simp [costStage, costOk, hm]

theorem popStage_eq (o : Option ℚ) (f : List Destination) :
    popStage o f = f.filter (fun d => popOk o d) := by
  cases o with
  | none => simp [popStage, popOk]
  | some mp =>
      by_cases hm : mp = 0 <;> simp [popStage, popOk, hm]

theorem filterDestinations_characterization (data : List Destination)
    (c : Criteria) (hs : c.sortBy = none ∨ c.sortBy = some "") :
    filterDestinations data c = data.filter (presentTruthyPred c) := by
  have hsort : ∀ f : List Destination, sortStage c.sortBy f = f := by
    intro f
    rcases hs with h | h <;> rw [h] <;> simp [sortStage]
  rw [filterDestinations, hsort, popStage_eq, costStage_eq, stateStage_eq,
    typeStage_eq, List.filter_filter, List.filter_filter, List.filter_filter]
  refine List.filter_congr ?_
  intro d _
  rw [presentTruthyPred]
  cases typeOk c.type d <;> cases stateOk c.state d <;>
    cases costOk c.maxCost d <;> cases popOk c.minPopularity d <;> rfl

/-- C6 counterexample: a criteria object with `max_cost` present but equal to
0 is falsy in JS, so `filterDestinations` skips the cost predicate and returns
the destination of cost 12000, which violates the claimed `cost ≤ max_cost`
conjunct. -/
theorem C6_zero_max_cost_counterexample :
    filterDestinations [dGoa] ⟨none, none, some 0, none, none⟩ = [dGoa] ∧
    ¬ (dGoa.cost ≤ (0 : ℚ)) := by
  refine ⟨?_, by decide⟩
  rw [filterDestinations_characterization _ _ (Or.inl rfl)]
  decide

/-- C6 (amended): with `sort_by` unset, `filter` returns exactly the
destinations, in underlying list order, that satisfy every present and truthy
predicate (nonempty type/state, nonzero max_cost/min_popularity); in
particular `filter({type: "Beach", max_cost: 10000})` returns only Beach-type
destinations with cost ≤ 10000. -/
theorem C6_filter_conjunctive_truthy (data : List Destination) (c : Criteria)
    (hs : c.sortBy = none ∨ c.sortBy = some "") :
    filterDestinations data c = data.filter (presentTruthyPred c) ∧
    ∀ d ∈ filterDestinations data ⟨some "Beach", none, some 10000, none, none⟩,
      jsLower d.type = jsLower "Beach" ∧ d.cost ≤ 10000 := by
  refine ⟨filterDestinations_characterization data c hs, ?_⟩
  intro d hd
  rw [filterDestinations_characterization data _ (Or.inl rfl)] at hd
  have hp := (List.mem_filter.mp hd).2
  have h1 : ¬ (("Beach" : String) = "") := by decide
  have h2 : ¬ ((10000 : ℚ) = 0) := by decide
  simp only [presentTruthyPred, typeOk, stateOk, costOk, popOk, h1, h2,
    if_neg, if_false, ite_false, eq_self_iff_true, Bool.and_true,
    Bool.true_and, Bool.and_eq_true, beq_iff_eq, decide_eq_true_eq] at hp
  exact ⟨hp.1, hp.2⟩

theorem C6_filter_conjunctive_truthy_witness :
    filterDestinations [dGoa, dAgra] ⟨some "Beach", none, some 10000, none, none⟩ =
      [dGoa, dAgra].filter
        (presentTruthyPred ⟨some "Beach", none, some 10000, none, none⟩) ∧
    ∀ d ∈ filterDestinations [dGoa, dAgra]
        ⟨some "Beach", none, some 10000, none, none⟩,
      jsLower d.type = jsLower "Beach" ∧ d.cost ≤ 10000 :=
  C6_filter_conjunctive_truthy [dGoa, dAgra] _ (Or.inl rfl)

/-- Array swap `[heap[i], heap[j]] = [heap[j], heap[i]]` on the list model. -/
def swapL (l : List α) (i j : ℕ) : List α :=
  match l[i]?, l[j]? with
  | some a, some b => (l.set i b).set j a
  | _, _ => l

theorem swapL_length (l : List α) (i j : ℕ) :
    (swapL l i j).length = l.length := by
  rw [swapL]
  cases l[i]? <;> cases l[j]? <;> simp

/-- `PriorityQueue._heapifyUp` (destinations.js line 92): `lt a b` models
`this.compare(a, b) < 0`.  The `index = 0` pattern is the source's
`parentIndex = -1 < 0` exit; for `index = i + 1` the parent index is `i / 2`. -/
def heapifyUp (lt : α → α → Bool) : List α → ℕ → List α
  | h, 0 => h
  | h, i + 1 =>
      match h[i + 1]?, h[i / 2]? with
      | some a, some b =>
          if lt a b then heapifyUp lt (swapL h (i + 1) (i / 2)) (i / 2) else h
      | _, _ => h
termination_by _ i => i
decreasing_by omega

/-- The left-child step of the `smallest` selection of `_heapifyDown`
(destinations.js line 105): take the left child when it is in bounds and
compares strictly less than the node. -/
def smallestIdx1 (lt : α → α → Bool) (h : List α) (i : ℕ) : ℕ :=
  match h[2 * i + 1]?, h[i]? with
  | some a, some b => if lt a b then 2 * i + 1 else i
  | _, _ => i

/-- The right-child step of the `smallest` selection of `_heapifyDown`
(destinations.js line 108). -/
def smallestIdx (lt : α → α → Bool) (h : List α) (i : ℕ) : ℕ :=
  match h[2 * i + 2]?, h[smallestIdx1 lt h i]? with
  | some a, some b => if lt a b then 2 * i + 2 else smallestIdx1 lt h i
  | _, _ => smallestIdx1 lt h i

theorem smallestIdx1_spec (lt : α → α → Bool) (h : List α) (i : ℕ) :
    smallestIdx1 lt h i = i ∨
      (smallestIdx1 lt h i = 2 * i + 1 ∧ 2 * i + 1 < h.length) := by
  rw [smallestIdx1]
  split
  · rename_i a b h1 h2
    split
    · right
      rcases List.getElem?_eq_some_iff.mp h1 with ⟨hb, _⟩
      exact ⟨rfl, hb⟩
    · left; rfl
  · left; rfl

theorem smallestIdx_spec (lt : α → α → Bool) (h : List α) (i : ℕ) :
    smallestIdx lt h i = i ∨
      (i < smallestIdx lt h i ∧ smallestIdx lt h i < h.length) := by
  have h1 := smallestIdx1_spec lt h i
  rw [smallestIdx]
  split
  · rename_i a b h2 hs1
    split
    · right
      rcases List.getElem?_eq_some_iff.mp h2 with ⟨hb, _⟩
      omega
    · rcases h1 with he | ⟨he, hb⟩
      · left; exact he
      · right; omega
  · rcases h1 with he | ⟨he, hb⟩
    · left; exact he
    · right; omega

/-- `PriorityQueue._heapifyDown` (destinations.js line 100): pick the least of
the node and its children; if it is not the node, swap and continue there. -/
def heapifyDown (lt : α → α → Bool) (h : List α) (i : ℕ) : List α :=
  if hne : smallestIdx lt h i = i then h
  else heapifyDown lt (swapL h i (smallestIdx lt h i)) (smallestIdx lt h i)
termination_by h.length - i
decreasing_by
  rcases smallestIdx_spec lt h i with he | ⟨hgt, hlt⟩
  · exact absurd he hne
  · rw [swapL_length]
    omega

/-- `PriorityQueue.enqueue` (destinations.js line 76): push, then sift up from
the new last index. -/
def enqueue (lt : α → α → Bool) (h : List α) (item : α) : List α :=
  heapifyUp lt (h ++ [item]) h.length

/-- `PriorityQueue.dequeue` (destinations.js line 82): null on an empty heap,
pop a singleton, else move the popped last element to the root and sift down. -/
def dequeue (lt : α → α → Bool) (h : List α) : Option α × List α :=
  match h with
  | [] => (none, [])
  | [x] => (some x, [])
  | x :: y :: t =>
      (some x,
        heapifyDown lt
          ((x :: y :: t).dropLast.set 0 ((x :: y :: t).getLast (by simp))) 0)

theorem heapifyUp_length (lt : α → α → Bool) :
    ∀ (h : List α) (i : ℕ), (heapifyUp lt h i).length = h.length := by
  intro h i
  induction h, i using heapifyUp.induct lt with
  | case1 h => rw [heapifyUp]
  | case2 h i a b h2 h1 hlt ih =>
      rw [heapifyUp, h1, h2]
      show (if lt a b = true then heapifyUp lt (swapL h (i + 1) (i / 2)) (i / 2)
        else h).length = h.length
      rw [if_pos hlt, ih, swapL_length]
  | case3 h i a b h2 h1 hlt =>
      rw [heapifyUp, h1, h2]
      show (if lt a b = true then heapifyUp lt (swapL h (i + 1) (i / 2)) (i / 2)
        else h).length = h.length
      rw [if_neg hlt]
  | case4 h i hx =>
      rw [heapifyUp]
      split
      · rename_i a b ha hb
        exact (hx a b ha hb).elim
      · rfl

theorem heapifyDown_length (lt : α → α → Bool) :
    ∀ (h : List α) (i : ℕ), (heapifyDown lt h i).length = h.length := by
  intro h i
  induction h, i using heapifyDown.induct lt with
  | case1 h i he => rw [heapifyDown, dif_pos he]
  | case2 h i hne ih =>
      rw [heapifyDown, dif_neg hne, ih, swapL_length]

/-- Parent index of heap slot `j` in the zero-based array layout. -/
def par (j : ℕ) : ℕ := (j - 1) / 2

/-- Executable check of the heap-order invariant: every nonzero slot compares
not-less-than its parent under the queue's comparator. -/
def heapInvB (lt : α → α → Bool) (h : List α) : Bool :=
  (List.range h.length).all fun j =>
    if j = 0 then true
    else match h[j]?, h[par j]? with
      | some a, some b => !(lt a b)
      | _, _ => true

/-- The heap-order invariant of the binary heap. -/
def heapInv (lt : α → α → Bool) (h : List α) : Prop := heapInvB lt h = true

theorem heapInv_iff (lt : α → α → Bool) (h : List α) :
    heapInv lt h ↔ ∀ j a b, 0 < j → h[j]? = some a → h[par j]? = some b →
      lt a b = false := by
  rw [heapInv, heapInvB, List.all_eq_true]
  constructor
  · intro hall j a b hj ha hb
    rcases List.getElem?_eq_some_iff.mp ha with ⟨hjlen, _⟩
    have := hall j (List.mem_range.mpr hjlen)
    rw [if_neg (by omega), ha, hb] at this
    simpa using this
  · intro himp j _
    by_cases hj0 : j = 0
    · simp [hj0]
    · rw [if_neg hj0]
      cases ha : h[j]? with
      | none => rfl
      | some a =>
          cases hb : h[par j]? with
          | none => rfl
          | some b => simpa using himp j a b (by omega) ha hb

/-- Asymmetry of a strict comparator: `a < b` forbids `b < a`. -/
def Asymm (lt : α → α → Bool) : Prop := ∀ a b, lt a b = true → lt b a = false

/-- Transitivity of the non-strict order induced by a strict comparator. -/
def NegTrans (lt : α → α → Bool) : Prop :=
  ∀ a b c, lt b a = false → lt c b = false → lt c a = false

theorem swapL_getElem?_of (l : List α) {i j : ℕ} {a b : α}
    (hi : l[i]? = some a) (hj : l[j]? = some b) (t : ℕ) :
    (swapL l i j)[t]? =
      if t = j then some a else if t = i then some b else l[t]? := by
  rw [swapL, hi, hj]
  rcases List.getElem?_eq_some_iff.mp hi with ⟨hil, hia⟩
  rcases List.getElem?_eq_some_iff.mp hj with ⟨hjl, hjb⟩
  by_cases htj : t = j
  · subst htj
    rw [if_pos rfl]
    rw [List.getElem?_set_self (by simpa using hjl)]
  · rw [if_neg htj, List.getElem?_set_ne (fun h => htj h.symm)]
    by_cases hti : t = i
    · subst hti
      rw [if_pos rfl, List.getElem?_set_self hil]
    · rw [if_neg hti, List.getElem?_set_ne (fun h => hti h.symm)]

/-- Sift-up intermediate state: the heap condition holds everywhere except
possibly on the edge from slot `i` to its parent, and the children of `i` are
already bounded by `i`'s parent (so the parent may move down into `i`). -/
def upInv (lt : α → α → Bool) (h : List α) (i : ℕ) : Prop :=
  (∀ j a b, 0 < j → j ≠ i → h[j]? = some a → h[par j]? = some b →
    lt a b = false) ∧
  (∀ c a b, 0 < i → par c = i → h[c]? = some a → h[par i]? = some b →
    lt a b = false)

theorem upInv_swap (lt : α → α → Bool) (Ha : Asymm lt) (Hn : NegTrans lt)
    (h : List α) (i : ℕ) {a b : α}
    (h1 : h[i + 1]? = some a) (h2 : h[i / 2]? = some b)
    (hlt : lt a b = true) (hs : upInv lt h (i + 1)) :
    upInv lt (swapL h (i + 1) (i / 2)) (i / 2) := by
  have hg := swapL_getElem?_of h h1 h2
  have hpar1 : par (i + 1) = i / 2 := rfl
  constructor
  · intro j x y hj0 hjp hx hy
    rw [hg j] at hx
    rw [hg (par j)] at hy
    by_cases hjc : j = i + 1
    · subst hjc
      rw [if_neg hjp, if_pos rfl] at hx
      rw [hpar1, if_pos rfl] at hy
      rw [Option.some.injEq] at hx hy
      subst hx
      subst hy
      exact Ha a b hlt
    · rw [if_neg hjp, if_neg hjc] at hx
      by_cases hpjc : par j = i + 1
      · rw [hpjc, if_neg (by omega), if_pos rfl] at hy
        rw [Option.some.injEq] at hy
        subst hy
        refine hs.2 j x b (by omega) hpjc hx ?_
        rw [hpar1]
        exact h2
      · by_cases hpjp : par j = i / 2
        · rw [hpjp, if_pos rfl] at hy
          rw [Option.some.injEq] at hy
          subst hy
          have hxb : lt x b = false := by
            refine hs.1 j x b hj0 hjc hx ?_
            rw [hpjp]
            exact h2
          exact Hn a b x (Ha a b hlt) hxb
        · rw [if_neg hpjp, if_neg hpjc] at hy
          exact hs.1 j x y hj0 hjc hx hy
  · intro c x y hp0 hpc hx hy
    have hplt : par (i / 2) < i / 2 := by
      rw [par]
      omega
    rw [hg c] at hx
    rw [hg (par (i / 2))] at hy
    rw [if_neg (by omega), if_neg (by omega)] at hy
    have hc0 : 0 < c := by
      by_contra hc
      have hc' : c = 0 := by omega
      subst hc'
      rw [par] at hpc
      omega
    have hcgt : i / 2 < c := by
      have : par c < c := by rw [par]; omega
      omega
    by_cases hcc : c = i + 1
    · subst hcc
      rw [if_neg (by omega), if_pos rfl] at hx
      rw [Option.some.injEq] at hx
      subst hx
      exact hs.1 (i / 2) b y hp0 (by omega) h2 hy
    · by_cases hcp : c = i / 2
      · omega
      · rw [if_neg hcp, if_neg hcc] at hx
        have hxb : lt x b = false := by
          refine hs.1 c x b hc0 hcc hx ?_
          rw [hpc]
          exact h2
        have hby : lt b y = false := hs.1 (i / 2) b y hp0 (by omega) h2 hy
        exact Hn y b x hby hxb

theorem heapifyUp_heapInv (lt : α → α → Bool) (Ha : Asymm lt)
    (Hn : NegTrans lt) :
    ∀ (h : List α) (i : ℕ), upInv lt h i → heapInv lt (heapifyUp lt h i) := by
  intro h i
  induction h, i using heapifyUp.induct lt with
  | case1 h =>
      intro hs
      rw [heapifyUp, heapInv_iff]
      intro j x y hj0 hx hy
      exact hs.1 j x y hj0 (by omega) hx hy
  | case2 h i a b h2 h1 hlt ih =>
      intro hs
      rw [heapifyUp, h1, h2]
      show heapInv lt (if lt a b = true
        then heapifyUp lt (swapL h (i + 1) (i / 2)) (i / 2) else h)
      rw [if_pos hlt]
      exact ih (upInv_swap lt Ha Hn h i h1 h2 hlt hs)
  | case3 h i a b h2 h1 hlt =>
      intro hs
      rw [heapifyUp, h1, h2]
      show heapInv lt (if lt a b = true
        then heapifyUp lt (swapL h (i + 1) (i / 2)) (i / 2) else h)
      rw [if_neg hlt, heapInv_iff]
      intro j x y hj0 hx hy
      by_cases hji : j = i + 1
      · subst hji
        rw [h1, Option.some.injEq] at hx
        rw [show par (i + 1) = i / 2 from rfl, h2, Option.some.injEq] at hy
        subst hx
        subst hy
        cases hab : lt a b with
        | false => rfl
        | true => exact absurd hab hlt
      · exact hs.1 j x y hj0 hji hx hy
  | case4 h i hnone =>
      intro hs
      rw [heapifyUp]
      split
      · rename_i a b ha hb
        exact (hnone a b ha hb).elim
      · rw [heapInv_iff]
        intro j x y hj0 hx hy
        by_cases hji : j = i + 1
        · subst hji
          rw [show par (i + 1) = i / 2 from rfl] at hy
          exact (hnone x y hx hy).elim
        · exact hs.1 j x y hj0 hji hx hy

theorem upInv_append (lt : α → α → Bool) (h : List α) (x : α)
    (hinv : heapInv lt h) : upInv lt (h ++ [x]) h.length := by
  constructor
  · intro j a b hj0 hji ha hb
    rcases List.getElem?_eq_some_iff.mp ha with ⟨hjlen, _⟩
    rw [List.length_append, List.length_singleton] at hjlen
    have hjlt : j < h.length := by omega
    have hplt : par j < h.length := by
      rw [par]
      omega
    rw [List.getElem?_append, if_pos hjlt] at ha
    rw [List.getElem?_append, if_pos hplt] at hb
    exact (heapInv_iff lt h).mp hinv j a b hj0 ha hb
  · intro c a b h0 hpar ha _
    rcases List.getElem?_eq_some_iff.mp ha with ⟨hclen, _⟩
    rw [List.length_append, List.length_singleton] at hclen
    rw [par] at hpar
    omega

theorem enqueue_heapInv (lt : α → α → Bool) (Ha : Asymm lt) (Hn : NegTrans lt)
    (h : List α) (x : α) (hinv : heapInv lt h) :
    heapInv lt (enqueue lt h x) :=
  heapifyUp_heapInv lt Ha Hn _ _ (upInv_append lt h x hinv)

theorem bool_eq_false {b : Bool} (hb : ¬ b = true) : b = false := by
  cases b
  · rfl
  · exact absurd rfl hb

theorem smallestIdx_eq_self_le (lt : α → α → Bool) (h : List α) (i : ℕ)
    (hs : smallestIdx lt h i = i) :
    ∀ j a b, (j = 2 * i + 1 ∨ j = 2 * i + 2) → h[j]? = some a →
      h[i]? = some b → lt a b = false := by
  intro j a b hj ha hb
  rcases hj with rfl | rfl
  · cases hab : lt a b with
    | false => rfl
    | true =>
        exfalso
        have hs1 : smallestIdx1 lt h i = 2 * i + 1 := by
          rw [smallestIdx1, ha, hb]
          show (if lt a b = true then 2 * i + 1 else i) = 2 * i + 1
          rw [if_pos hab]
        rw [smallestIdx, hs1, ha] at hs
        cases hc : h[2 * i + 2]? with
        | none =>
            rw [hc] at hs
            have hs' : 2 * i + 1 = i := hs
            omega
        | some a2 =>
            rw [hc] at hs
            have hs' : (if lt a2 a = true then 2 * i + 2 else 2 * i + 1) = i := hs
            by_cases h2 : lt a2 a = true
            · rw [if_pos h2] at hs'; omega
            · rw [if_neg h2] at hs'; omega
  · cases hab : lt a b with
    | false => rfl
    | true =>
        exfalso
        rcases smallestIdx1_spec lt h i with h1 | ⟨h1, _⟩
        · rw [smallestIdx, h1, ha, hb] at hs
          have hs' : (if lt a b = true then 2 * i + 2 else i) = i := hs
          rw [if_pos hab] at hs'
          omega
        · rw [smallestIdx, h1, ha] at hs
          cases hd : h[2 * i + 1]? with
          | none =>
              rw [hd] at hs
              have hs' : 2 * i + 1 = i := hs
              omega
          | some c =>
              rw [hd] at hs
              have hs' : (if lt a c = true then 2 * i + 2 else 2 * i + 1) = i := hs
              by_cases h2 : lt a c = true
              · rw [if_pos h2] at hs'; omega
              · rw [if_neg h2] at hs'; omega

theorem smallestIdx_ne_le (lt : α → α → Bool) (Ha : Asymm lt) (Hn : NegTrans lt)
    (h : List α) (i : ℕ) (hne : smallestIdx lt h i ≠ i) :
    (smallestIdx lt h i = 2 * i + 1 ∨ smallestIdx lt h i = 2 * i + 2) ∧
    (∃ bi bs, h[i]? = some bi ∧ h[smallestIdx lt h i]? = some bs ∧
      lt bi bs = false) ∧
    (∀ j a bs, (j = 2 * i + 1 ∨ j = 2 * i + 2) → j ≠ smallestIdx lt h i →
      h[j]? = some a → h[smallestIdx lt h i]? = some bs →
      lt a bs = false) := by
  cases hA : h[2 * i + 1]? with
  | none =>
      have hs1 : smallestIdx1 lt h i = i := by rw [smallestIdx1, hA]
      cases hC : h[2 * i + 2]? with
      | none =>
          exfalso
          apply hne
          rw [smallestIdx, hC, hs1]
      | some a2 =>
          cases hB : h[i]? with
          | none =>
              exfalso
              apply hne
              rw [smallestIdx, hC, hs1, hB]
          | some b0 =>
              have hseq : smallestIdx lt h i =
                  if lt a2 b0 = true then 2 * i + 2 else i := by
                rw [smallestIdx, hC, hs1, hB]
              by_cases hlt2 : lt a2 b0 = true
              · rw [if_pos hlt2] at hseq
                refine ⟨Or.inr hseq,
                  ⟨b0, a2, rfl, by rw [hseq]; exact hC, Ha _ _ hlt2⟩, ?_⟩
                intro j a bs hj hjne ha hbs
                rcases hj with rfl | rfl
                · rw [hA] at ha
                  exact Option.noConfusion ha
                · rw [hseq] at hjne
                  exact absurd rfl hjne
              · rw [if_neg hlt2] at hseq
                exact absurd hseq hne
  | some a1 =>
      cases hB : h[i]? with
      | none =>
          have hs1 : smallestIdx1 lt h i = i := by rw [smallestIdx1, hA, hB]
          exfalso
          apply hne
          rw [smallestIdx, hs1, hB]
          cases hC : h[2 * i + 2]? <;> rfl
      | some b0 =>
          by_cases hlt1 : lt a1 b0 = true
          · have hs1 : smallestIdx1 lt h i = 2 * i + 1 := by
              rw [smallestIdx1, hA, hB]
              show (if lt a1 b0 = true then 2 * i + 1 else i) = 2 * i + 1
              rw [if_pos hlt1]
            cases hC : h[2 * i + 2]? with
            | none =>
                have hseq : smallestIdx lt h i = 2 * i + 1 := by
                  rw [smallestIdx, hC, hs1]
                refine ⟨Or.inl hseq,
                  ⟨b0, a1, rfl, by rw [hseq]; exact hA, Ha _ _ hlt1⟩, ?_⟩
                intro j a bs hj hjne ha hbs
                rcases hj with rfl | rfl
                · rw [hseq] at hjne
                  exact absurd rfl hjne
                · rw [hC] at ha
                  exact Option.noConfusion ha
            | some a2 =>
                have hseq : smallestIdx lt h i =
                    if lt a2 a1 = true then 2 * i + 2 else 2 * i + 1 := by
                  rw [smallestIdx, hC, hs1, hA]
                by_cases hlt2 : lt a2 a1 = true
                · rw [if_pos hlt2] at hseq
                  refine ⟨Or.inr hseq,
                    ⟨b0, a2, rfl, by rw [hseq]; exact hC,
                      Hn a2 a1 b0 (Ha _ _ hlt2) (Ha _ _ hlt1)⟩, ?_⟩
                  intro j a bs hj hjne ha hbs
                  rcases hj with rfl | rfl
                  · rw [hA, Option.some.injEq] at ha
                    subst ha
                    rw [hseq, hC, Option.some.injEq] at hbs
                    subst hbs
                    exact Ha _ _ hlt2
                  · rw [hseq] at hjne
                    exact absurd rfl hjne
                · rw [if_neg hlt2] at hseq
                  refine ⟨Or.inl hseq,
                    ⟨b0, a1, rfl, by rw [hseq]; exact hA, Ha _ _ hlt1⟩, ?_⟩
                  intro j a bs hj hjne ha hbs
                  rcases hj with rfl | rfl
                  · rw [hseq] at hjne
                    exact absurd rfl hjne
                  · rw [hC, Option.some.injEq] at ha
                    subst ha
                    rw [hseq, hA, Option.some.injEq] at hbs
                    subst hbs
                    exact bool_eq_false hlt2
          · have hs1 : smallestIdx1 lt h i = i := by
              rw [smallestIdx1, hA, hB]
              show (if lt a1 b0 = true then 2 * i + 1 else i) = i
              rw [if_neg hlt1]
            cases hC : h[2 * i + 2]? with
            | none =>
                exfalso
                apply hne
                rw [smallestIdx, hC, hs1]
            | some a2 =>
                have hseq : smallestIdx lt h i =
                    if lt a2 b0 = true then 2 * i + 2 else i := by
                  rw [smallestIdx, hC, hs1, hB]
                by_cases hlt2 : lt a2 b0 = true
                · rw [if_pos hlt2] at hseq
                  refine ⟨Or.inr hseq,
                    ⟨b0, a2, rfl, by rw [hseq]; exact hC, Ha _ _ hlt2⟩, ?_⟩
                  intro j a bs hj hjne ha hbs
                  rcases hj with rfl | rfl
                  · rw [hA, Option.some.injEq] at ha
                    subst ha
                    rw [hseq, hC, Option.some.injEq] at hbs
                    subst hbs
                    exact Hn a2 b0 a1 (Ha _ _ hlt2) (bool_eq_false hlt1)
                  · rw [hseq] at hjne
                    exact absurd rfl hjne
                · rw [if_neg hlt2] at hseq
                  exact absurd hseq hne

/-- Sift-down intermediate state: the heap condition holds on every edge not
entering slot `i`, and the children of `i` are bounded by `i`'s parent. -/
def downInv (lt : α → α → Bool) (h : List α) (i : ℕ) : Prop :=
  (∀ j a b, 0 < j → par j ≠ i → h[j]? = some a → h[par j]? = some b →
    lt a b = false) ∧
  (∀ c a b, 0 < i → par c = i → h[c]? = some a → h[par i]? = some b →
    lt a b = false)

theorem par_children (i j : ℕ) (hj : 0 < j) (hp : par j = i) :
    j = 2 * i + 1 ∨ j = 2 * i + 2 := by
  rw [par] at hp
  omega

theorem downInv_swap (lt : α → α → Bool) (Ha : Asymm lt) (Hn : NegTrans lt)
    (h : List α) (i : ℕ) (hne : smallestIdx lt h i ≠ i)
    (hs : downInv lt h i) :
    downInv lt (swapL h i (smallestIdx lt h i)) (smallestIdx lt h i) := by
  obtain ⟨hchild, ⟨bi, bs, hB, hS, hbis⟩, hother⟩ :=
    smallestIdx_ne_le lt Ha Hn h i hne
  set s := smallestIdx lt h i with hsdef
  have hg := swapL_getElem?_of h hB hS
  have hsgt : i < s := by omega
  have hpars : par s = i := by
    rw [par]
    omega
  constructor
  · intro j x y hj0 hpjs hx hy
    rw [hg j] at hx
    rw [hg (par j)] at hy
    by_cases hjs : j = s
    · subst hjs
      rw [if_pos rfl] at hx
      rw [hpars, if_neg (by omega), if_pos rfl] at hy
      rw [Option.some.injEq] at hx hy
      subst hx
      subst hy
      exact hbis
    · rw [if_neg hjs] at hx
      by_cases hpji : par j = i
      · have hj12 := par_children i j hj0 hpji
        have hjne_i : j ≠ i := by omega
        rw [if_neg hjne_i] at hx
        rw [hpji, if_neg (by omega), if_pos rfl] at hy
        rw [Option.some.injEq] at hy
        subst hy
        exact hother j x bs hj12 hjs hx hS
      · by_cases hji : j = i
        · subst hji
          rw [if_pos rfl] at hx
          rw [Option.some.injEq] at hx
          subst hx
          have hpar_ne_s : par j ≠ s := hpjs
          have hpar_lt : par j < j := by
            rw [par]
            omega
          rw [if_neg (by omega), if_neg (by omega)] at hy
          exact hs.2 s bs y hj0 hpars hS hy
        · rw [if_neg hji] at hx
          rw [if_neg hpjs, if_neg hpji] at hy
          exact hs.1 j x y hj0 hpji hx hy
  · intro c x y hs0 hpc hx hy
    have hc0 : 0 < c := by
      by_contra hc
      have hc' : c = 0 := by omega
      subst hc'
      rw [par] at hpc
      omega
    have hcgt : s < c := by
      have : par c < c := by rw [par]; omega
      omega
    rw [hg c] at hx
    rw [hg (par s)] at hy
    rw [hpars] at hy
    rw [if_neg (by omega), if_pos rfl] at hy
    rw [Option.some.injEq] at hy
    subst hy
    rw [if_neg (by omega), if_neg (by omega)] at hx
    exact hs.1 c x bs hc0 (by rw [hpc]; omega) hx (by rw [hpc]; exact hS)

theorem heapifyDown_heapInv (lt : α → α → Bool) (Ha : Asymm lt)
    (Hn : NegTrans lt) :
    ∀ (h : List α) (i : ℕ), downInv lt h i → heapInv lt (heapifyDown lt h i) := by
  intro h i
  induction h, i using heapifyDown.induct lt with
  | case1 h i he =>
      intro hs
      rw [heapifyDown, dif_pos he, heapInv_iff]
      intro j x y hj0 hx hy
      by_cases hpj : par j = i
      · have hj12 := par_children i j hj0 hpj
        refine smallestIdx_eq_self_le lt h i he j x y hj12 hx ?_
        rw [← hpj]
        exact hy
      · exact hs.1 j x y hj0 hpj hx hy
  | case2 h i hne ih =>
      intro hs
      rw [heapifyDown, dif_neg hne]
      exact ih (downInv_swap lt Ha Hn h i hne hs)

theorem heapInv_nil (lt : α → α → Bool) : heapInv lt ([] : List α) := by
  rw [heapInv_iff]
  intro j a b _ ha _
  simp at ha

theorem dequeue_heapInv (lt : α → α → Bool) (Ha : Asymm lt) (Hn : NegTrans lt)
    (h : List α) (hinv : heapInv lt h) : heapInv lt (dequeue lt h).2 := by
  match h with
  | [] => exact heapInv_nil lt
  | [x] => exact heapInv_nil lt
  | x :: y :: t =>
      show heapInv lt (heapifyDown lt
        ((x :: y :: t).dropLast.set 0 ((x :: y :: t).getLast (by simp))) 0)
      apply heapifyDown_heapInv lt Ha Hn
      constructor
      · intro j a b hj0 hpj ha hb
        rw [List.getElem?_set_ne (by omega), List.getElem?_dropLast] at ha
        rw [List.getElem?_set_ne (by omega), List.getElem?_dropLast] at hb
        by_cases hjl : j < (x :: y :: t).length - 1
        · rw [if_pos hjl] at ha
          by_cases hpl : par j < (x :: y :: t).length - 1
          · rw [if_pos hpl] at hb
            exact (heapInv_iff lt _).mp hinv j a b hj0 ha hb
          · rw [if_neg hpl] at hb
            exact Option.noConfusion hb
        · rw [if_neg hjl] at ha
          exact Option.noConfusion ha
      · intro c a b h0 _ _ _
        exact absurd h0 (lt_irrefl 0)

theorem heapInv_root_le (lt : α → α → Bool) (Ha : Asymm lt) (Hn : NegTrans lt)
    (h : List α) (hinv : heapInv lt h) (r : α) (hr : h[0]? = some r) :
    ∀ (j : ℕ) (x : α), h[j]? = some x → lt x r = false := by
  intro j
  induction j using Nat.strong_induction_on with
  | _ j ih =>
      intro x hx
      by_cases hj0 : j = 0
      · subst hj0
        rw [hr, Option.some.injEq] at hx
        subst hx
        cases hrr : lt r r with
        | false => rfl
        | true =>
            have hfalse := Ha r r hrr
            rw [hrr] at hfalse
            exact hfalse
      · have h0j : 0 < j := by omega
        rcases List.getElem?_eq_some_iff.mp hx with ⟨hjlen, _⟩
        have hparlt : par j < j := by rw [par]; omega
        have hplen : par j < h.length := by omega
        have hp : h[par j]? = some (h.get ⟨par j, hplen⟩) := by
          rw [List.get_eq_getElem]
          exact List.getElem?_eq_getElem hplen
        have h1 := (heapInv_iff lt h).mp hinv j x (h.get ⟨par j, hplen⟩) h0j hx hp
        have h2 := ih (par j) hparlt (h.get ⟨par j, hplen⟩) hp
        exact Hn r (h.get ⟨par j, hplen⟩) x h2 h1

theorem swapL_perm (l : List α) (i j : ℕ) : (swapL l i j).Perm l := by
  classical
  rw [swapL]
  cases hi : l[i]? with
  | none => exact List.Perm.refl l
  | some a =>
      cases hj : l[j]? with
      | none => exact List.Perm.refl l
      | some b =>
          rcases List.getElem?_eq_some_iff.mp hi with ⟨hil, hia⟩
          rcases List.getElem?_eq_some_iff.mp hj with ⟨hjl, hjb⟩
          rw [List.perm_iff_count]
          intro x
          rw [List.count_set a x (l.set i b) j
            (by rw [List.length_set]; exact hjl)]
          rw [List.count_set b x l i hil]
          rw [List.getElem_set]
          have hmem_a : a ∈ l := hia ▸ List.getElem_mem hil
          have hmem_b : b ∈ l := hjb ▸ List.getElem_mem hjl
          have hca : (a == x) = true → 0 < List.count x l := by
            intro hax
            rw [← eq_of_beq hax]
            exact List.count_pos_iff.mpr hmem_a
          have hcb : (b == x) = true → 0 < List.count x l := by
            intro hbx
            rw [← eq_of_beq hbx]
            exact List.count_pos_iff.mpr hmem_b
          by_cases hij : i = j
          · subst hij
            have hab : a = b := by rw [← hia, ← hjb]
            subst hab
            rw [if_pos rfl, hia]
            cases hax : (a == x) with
            | true =>
                have h1 := hca hax
                simp [hax]
                omega
            | false =>
                simp [hax]
          · rw [if_neg hij, hia, hjb]
            cases hax : (a == x) with
            | true =>
                have h1 := hca hax
                cases hbx : (b == x) with
                | true =>
                    have h2 := hcb hbx
                    simp [hax, hbx]
                    omega
                | false =>
                    simp [hax, hbx]
                    omega
            | false =>
                cases hbx : (b == x) with
                | true =>
                    have h2 := hcb hbx
                    simp [hax, hbx]
                | false =>
                    simp [hax, hbx]

theorem heapifyUp_perm (lt : α → α → Bool) :
    ∀ (h : List α) (i : ℕ), (heapifyUp lt h i).Perm h := by
  intro h i
  induction h, i using heapifyUp.induct lt with
  | case1 h =>
      rw [heapifyUp]
  | case2 h i a b h2 h1 hlt ih =>
      rw [heapifyUp, h1, h2]
      show (if lt a b = true then heapifyUp lt (swapL h (i + 1) (i / 2)) (i / 2)
        else h).Perm h
      rw [if_pos hlt]
      exact ih.trans (swapL_perm h (i + 1) (i / 2))
  | case3 h i a b h2 h1 hlt =>
      rw [heapifyUp, h1, h2]
      show (if lt a b = true then heapifyUp lt (swapL h (i + 1) (i / 2)) (i / 2)
        else h).Perm h
      rw [if_neg hlt]
  | case4 h i hnone =>
      rw [heapifyUp]
      split
      · rename_i a b ha hb
        exact (hnone a b ha hb).elim
      · exact List.Perm.refl h

theorem heapifyDown_perm (lt : α → α → Bool) :
    ∀ (h : List α) (i : ℕ), (heapifyDown lt h i).Perm h := by
  intro h i
  induction h, i using heapifyDown.induct lt with
  | case1 h i he => rw [heapifyDown, dif_pos he]
  | case2 h i hne ih =>
      rw [heapifyDown, dif_neg hne]
      exact ih.trans (swapL_perm _ _ _)

theorem dequeue_cons_some (lt : α → α → Bool) (x : α) (t : List α) :
    ∃ a h', dequeue lt (x :: t) = (some a, h') := by
  match t with
  | [] => exact ⟨x, [], rfl⟩
  | z :: t' => exact ⟨x, _, rfl⟩

theorem dequeue_perm (lt : α → α → Bool) (h : List α) (x : α) (h' : List α)
    (hd : dequeue lt h = (some x, h')) : (x :: h').Perm h := by
  match h with
  | [] => simp [dequeue] at hd
  | [y] =>
      rw [dequeue, Prod.mk.injEq, Option.some.injEq] at hd
      obtain ⟨rfl, rfl⟩ := hd
      exact List.Perm.refl _
  | y :: z :: t =>
      rw [dequeue, Prod.mk.injEq, Option.some.injEq] at hd
      obtain ⟨rfl, hh⟩ := hd
      subst hh
      refine List.Perm.trans (List.Perm.cons _ (heapifyDown_perm lt _ 0)) ?_
      have hd1 : (y :: z :: t).dropLast = y :: (z :: t).dropLast := rfl
      have hlast : (y :: z :: t).getLast (by simp) =
          (z :: t).getLast (by simp) := List.getLast_cons (by simp)
      rw [hd1, hlast]
      show (y :: (z :: t).getLast (by simp) :: (z :: t).dropLast).Perm
        (y :: z :: t)
      refine List.Perm.cons y ?_
      have hmid : ((z :: t).getLast (by simp) :: (z :: t).dropLast).Perm
          ((z :: t).dropLast ++ [(z :: t).getLast (by simp)]) := by
        have := @List.perm_middle _ ((z :: t).getLast (by simp))
          ((z :: t).dropLast) []
        simpa using this.symm
      refine hmid.trans ?_
      rw [List.dropLast_append_getLast]

theorem dequeue_some_length (lt : α → α → Bool) (h : List α) (x : α)
    (h' : List α) (hd : dequeue lt h = (some x, h')) :
    h'.length + 1 = h.length := by
  have := (dequeue_perm lt h x h' hd).length_eq
  simpa using this

theorem dequeue_fst_root (lt : α → α → Bool) (h : List α) (x : α) (h' : List α)
    (hd : dequeue lt h = (some x, h')) : h[0]? = some x := by
  match h with
  | [] => simp [dequeue] at hd
  | [y] =>
      rw [dequeue, Prod.mk.injEq, Option.some.injEq] at hd
      obtain ⟨rfl, _⟩ := hd
      rfl
  | y :: z :: t =>
      rw [dequeue, Prod.mk.injEq, Option.some.injEq] at hd
      obtain ⟨rfl, _⟩ := hd
      rfl

/-- Repeatedly dequeuing until empty, implemented with a fuel bounded by the
heap size (each dequeue shrinks the heap by one). -/
def drainAux (lt : α → α → Bool) : ℕ → List α → List α
  | 0, _ => []
  | fuel + 1, h =>
      match dequeue lt h with
      | (none, _) => []
      | (some x, h') => x :: drainAux lt fuel h'

/-- The observation sequence of the queue: dequeue until empty. -/
def drain (lt : α → α → Bool) (h : List α) : List α := drainAux lt h.length h

theorem drainAux_eq_drain (lt : α → α → Bool) :
    ∀ (fuel : ℕ) (h : List α), h.length ≤ fuel →
      drainAux lt fuel h = drain lt h := by
  intro fuel
  induction fuel with
  | zero =>
      intro h hle
      match h with
      | [] => rfl
  | succ fuel ih =>
      intro h hle
      match h with
      | [] => rfl
      | x :: t =>
          obtain ⟨a, h', hd⟩ := dequeue_cons_some lt x t
          have hlen := dequeue_some_length lt (x :: t) a h' hd
          have e1 : drainAux lt (fuel + 1) (x :: t) = a :: drainAux lt fuel h' := by
            rw [drainAux, hd]
          have e2 : drain lt (x :: t) = a :: drainAux lt t.length h' := by
            rw [drain]
            simp only [List.length_cons]
            rw [drainAux, hd]
          rw [e1, e2, ih h' (by simp at hle hlen; omega)]
          have e3 : drainAux lt t.length h' = drain lt h' := by
            rw [show t.length = h'.length from by simp at hlen; omega]
            rfl
          rw [e3]

theorem drain_cons_eq (lt : α → α → Bool) (x : α) (t : List α) (a : α)
    (h' : List α) (hd : dequeue lt (x :: t) = (some a, h')) :
    drain lt (x :: t) = a :: drain lt h' := by
  have hlen := dequeue_some_length lt (x :: t) a h' hd
  rw [drain]
  simp only [List.length_cons]
  rw [drainAux, hd]
  show a :: drainAux lt t.length h' = a :: drain lt h'
  rw [drainAux_eq_drain lt t.length h' (by simp at hlen; omega)]

theorem drain_perm (lt : α → α → Bool) :
    ∀ (n : ℕ) (h : List α), h.length = n → (drain lt h).Perm h := by
  intro n
  induction n using Nat.strong_induction_on with
  | _ n ih =>
      intro h hlen
      match h with
      | [] => exact List.Perm.refl _
      | x :: t =>
          obtain ⟨a, h', hd⟩ := dequeue_cons_some lt x t
          rw [drain_cons_eq lt x t a h' hd]
          have hlen2 := dequeue_some_length lt (x :: t) a h' hd
          have hperm := dequeue_perm lt (x :: t) a h' hd
          refine List.Perm.trans (List.Perm.cons a
            (ih h'.length ?_ h' rfl)) hperm
          simp at hlen2 hlen
          omega

theorem drain_sorted (lt : α → α → Bool) (Ha : Asymm lt) (Hn : NegTrans lt) :
    ∀ (n : ℕ) (h : List α), h.length = n → heapInv lt h →
      (drain lt h).Sorted (fun a b => lt b a = false) := by
  intro n
  induction n using Nat.strong_induction_on with
  | _ n ih =>
      intro h hlen hinv
      match h with
      | [] => simp [drain, drainAux]
      | x :: t =>
          obtain ⟨a, h', hd⟩ := dequeue_cons_some lt x t
          rw [drain_cons_eq lt x t a h' hd]
          have hlen2 := dequeue_some_length lt (x :: t) a h' hd
          rw [List.sorted_cons]
          constructor
          · intro y hy
            have hy1 : y ∈ h' :=
              ((drain_perm lt h'.length h' rfl).mem_iff).mp hy
            have hy2 : y ∈ x :: t :=
              (dequeue_perm lt (x :: t) a h' hd).mem_iff.mp
                (List.mem_cons_of_mem a hy1)
            obtain ⟨j, hjlen, hjy⟩ := List.mem_iff_getElem.mp hy2
            refine heapInv_root_le lt Ha Hn (x :: t) hinv a
              (dequeue_fst_root lt (x :: t) a h' hd) j y ?_
            rw [List.getElem?_eq_getElem hjlen, hjy]
          · have hinv' : heapInv lt h' := by
              have := dequeue_heapInv lt Ha Hn (x :: t) hinv
              rw [hd] at this
              exact this
            refine ih h'.length ?_ h' rfl hinv'
            simp at hlen2 hlen
            omega

/-- A client operation on the priority queue. -/
inductive HeapOp (α : Type) where
  | enq (x : α)
  | deq

/-- The queue state after a sequence of enqueue/dequeue calls starting from
the freshly constructed (empty) queue. -/
def applyOps (lt : α → α → Bool) (ops : List (HeapOp α)) : List α :=
  ops.foldl (fun h op =>
    match op with
    | HeapOp.enq x => enqueue lt h x
    | HeapOp.deq => (dequeue lt h).2) []

theorem applyOps_heapInv (lt : α → α → Bool) (Ha : Asymm lt) (Hn : NegTrans lt)
    (ops : List (HeapOp α)) : heapInv lt (applyOps lt ops) := by
  rw [applyOps]
  have hgen : ∀ (ops : List (HeapOp α)) (h : List α), heapInv lt h →
      heapInv lt (ops.foldl (fun h op =>
        match op with
        | HeapOp.enq x => enqueue lt h x
        | HeapOp.deq => (dequeue lt h).2) h) := by
    intro ops
    induction ops with
    | nil => intro h hh; exact hh
    | cons op rest ih =>
        intro h hh
        rw [List.foldl_cons]
        refine ih _ ?_
        match op with
        | HeapOp.enq x => exact enqueue_heapInv lt Ha Hn h x hh
        | HeapOp.deq => exact dequeue_heapInv lt Ha Hn h hh
  exact hgen ops [] (heapInv_nil lt)

/-- C5: for every comparator `lt` (modelling `compare(a, b) < 0`) that is
asymmetric and negatively transitive — as every numeric-key comparator the
program constructs is — and every sequence of enqueue/dequeue operations on
an initially empty queue, the binary-heap order invariant holds after the
sequence (and hence after every operation, the sequence being arbitrary),
and repeatedly dequeuing until empty yields a sequence monotone
non-decreasing under the comparator; instantiating `lt` with a reversed
(max-heap) comparator makes this the non-increasing order of that claim. -/
theorem C5_heap_invariant_and_sorted_drain (lt : α → α → Bool)
    (Ha : Asymm lt) (Hn : NegTrans lt) (ops : List (HeapOp α)) :
    heapInv lt (applyOps lt ops) ∧
    (drain lt (applyOps lt ops)).Sorted (fun a b => lt b a = false) := by
  refine ⟨applyOps_heapInv lt Ha Hn ops, ?_⟩
  exact drain_sorted lt Ha Hn _ _ rfl (applyOps_heapInv lt Ha Hn ops)

theorem ratLt_asymm : Asymm (fun a b : ℚ => decide (a < b)) := by
  intro a b hab
  simp only [decide_eq_true_eq] at hab
  simp only [decide_eq_false_iff_not]
  exact lt_asymm hab

theorem ratLt_negtrans : NegTrans (fun a b : ℚ => decide (a < b)) := by
  intro a b c h1 h2
  simp only [decide_eq_false_iff_not] at h1 h2 ⊢
  intro hca
  exact hca.not_le (le_trans (le_of_not_lt h1) (le_of_not_lt h2))

theorem C5_heap_invariant_and_sorted_drain_witness :
    heapInv (fun a b : ℚ => decide (a < b))
      (applyOps (fun a b : ℚ => decide (a < b))
        [HeapOp.enq 3, HeapOp.enq 1, HeapOp.enq 2, HeapOp.deq]) ∧
    (drain (fun a b : ℚ => decide (a < b))
        (applyOps (fun a b : ℚ => decide (a < b))
          [HeapOp.enq 3, HeapOp.enq 1, HeapOp.enq 2, HeapOp.deq])).Sorted
      (fun a b => (fun a b : ℚ => decide (a < b)) b a = false) :=
  C5_heap_invariant_and_sorted_drain (fun a b : ℚ => decide (a < b))
    ratLt_asymm ratLt_negtrans [HeapOp.enq 3, HeapOp.enq 1, HeapOp.enq 2, HeapOp.deq]

/-- Activity entry of the recommendation queue (destinations.js line 1225). -/
structure Activity where
  activity : String
  destination : String
  priority : ℚ
deriving DecidableEq

/-- The max-heap comparator `(a, b) => b.priority - a.priority` of the
activity queues (destinations.js lines 1209 and 1320): `compare(a, b) < 0`
holds exactly when `b.priority < a.priority`. -/
def actLt (a b : Activity) : Bool := decide (b.priority < a.priority)

/-- The first loop of `getTopActivities` (destinations.js line 1323): drain
the activity queue, pushing each dequeued element onto `activities` and into
`tempQueue`; fuel is bounded by the queue size. -/
def drainIntoAux (lt : α → α → Bool) :
    ℕ → List α → List α → List α → List α × List α
  | 0, _, acts, temp => (acts, temp)
  | fuel + 1, pq, acts, temp =>
      match pq with
      | [] => (acts, temp)
      | _ :: _ =>
          match dequeue lt pq with
          | (none, _) => (acts, temp)
          | (some a, pq') =>
              drainIntoAux lt fuel pq' (acts ++ [a]) (enqueue lt temp a)

/-- The second loop of `getTopActivities` (destinations.js line 1330): move
everything from `tempQueue` back into the activity queue. -/
def refillAux (lt : α → α → Bool) : ℕ → List α → List α → List α
  | 0, _, main => main
  | fuel + 1, temp, main =>
      match temp with
      | [] => main
      | _ :: _ =>
          match dequeue lt temp with
          | (none, _) => main
          | (some a, temp') => refillAux lt fuel temp' (enqueue lt main a)

/-- `getTopActivities` (destinations.js line 1318) acting on the queue state:
the first `count` drained activities (`slice(0, count)`), paired with the
restored queue state. -/
def getTopActivities (count : ℕ) (h : List Activity) :
    List Activity × List Activity :=
  let r := drainIntoAux actLt h.length h [] []
  (r.1.take count, refillAux actLt r.2.length r.2 [])

theorem drainIntoAux_eq (lt : α → α → Bool) :
    ∀ (fuel : ℕ) (pq acts temp : List α), pq.length ≤ fuel →
      drainIntoAux lt fuel pq acts temp =
        (acts ++ drain lt pq,
          (drain lt pq).foldl (fun t a => enqueue lt t a) temp) := by
  intro fuel
  induction fuel with
  | zero =>
      intro pq acts temp hle
      match pq with
      | [] => simp [drainIntoAux, drain, drainAux]
  | succ fuel ih =>
      intro pq acts temp hle
      match pq with
      | [] => simp [drainIntoAux, drain, drainAux]
      | x :: t =>
          obtain ⟨a, pq', hd⟩ := dequeue_cons_some lt x t
          have hlen := dequeue_some_length lt (x :: t) a pq' hd
          have e1 : drainIntoAux lt (fuel + 1) (x :: t) acts temp =
              drainIntoAux lt fuel pq' (acts ++ [a]) (enqueue lt temp a) := by
            rw [drainIntoAux, hd]
          rw [e1, ih pq' _ _ (by simp at hle hlen; omega),
            drain_cons_eq lt x t a pq' hd]
          simp

theorem refillAux_eq (lt : α → α → Bool) :
    ∀ (fuel : ℕ) (temp main : List α), temp.length ≤ fuel →
      refillAux lt fuel temp main =
        (drain lt temp).foldl (fun m a => enqueue lt m a) main := by
  intro fuel
  induction fuel with
  | zero =>
      intro temp main hle
      match temp with
      | [] => simp [refillAux, drain, drainAux]
  | succ fuel ih =>
      intro temp main hle
      match temp with
      | [] => simp [refillAux, drain, drainAux]
      | x :: t =>
          obtain ⟨a, temp', hd⟩ := dequeue_cons_some lt x t
          have hlen := dequeue_some_length lt (x :: t) a temp' hd
          have e1 : refillAux lt (fuel + 1) (x :: t) main =
              refillAux lt fuel temp' (enqueue lt main a) := by
            rw [refillAux, hd]
          rw [e1, ih temp' _ (by simp at hle hlen; omega),
            drain_cons_eq lt x t a temp' hd]
          simp

theorem enqueue_perm (lt : α → α → Bool) (h : List α) (x : α) :
    (enqueue lt h x).Perm (x :: h) := by
  rw [enqueue]
  refine (heapifyUp_perm lt _ _).trans ?_
  simpa using (@List.perm_middle _ x h []).symm.symm

theorem foldl_enqueue_perm (lt : α → α → Bool) :
    ∀ (l acc : List α),
      (l.foldl (fun t a => enqueue lt t a) acc).Perm (acc ++ l) := by
  intro l
  induction l with
  | nil => intro acc; simp
  | cons a t ih =>
      intro acc
      rw [List.foldl_cons]
      refine (ih _).trans ?_
      refine List.Perm.trans
        (List.Perm.append (enqueue_perm lt acc a) (List.Perm.refl t)) ?_
      simpa using (@List.perm_middle _ a acc t).symm

theorem actLt_asymm : Asymm actLt := by
  intro a b hab
  rw [actLt] at *
  simp only [decide_eq_true_eq] at hab
  simp only [decide_eq_false_iff_not]
  exact lt_asymm hab

theorem actLt_negtrans : NegTrans actLt := by
  intro a b c h1 h2
  rw [actLt] at *
  simp only [decide_eq_false_iff_not] at h1 h2 ⊢
  intro hca
  exact hca.not_le (le_trans (le_of_not_lt h2) (le_of_not_lt h1))

/-- C9: for every `count` and every reachable state of the activity priority
queue, `getTopActivities` returns the `count` highest-priority entries — the
prefix of a priority-non-increasing permutation of the queue contents — in
non-increasing priority order and with length `min count size`, and the queue
afterwards holds exactly the same multiset of entries as before the call. -/
theorem C9_top_activities_nondestructive (count : ℕ) (h : List Activity)
    (hinv : heapInv actLt h) :
    (∃ full : List Activity, full.Perm h ∧
      full.Sorted (fun a b => b.priority ≤ a.priority) ∧
      (getTopActivities count h).1 = full.take count) ∧
    (getTopActivities count h).1.length = min count h.length ∧
    (getTopActivities count h).1.Sorted (fun a b => b.priority ≤ a.priority) ∧
    (getTopActivities count h).2.Perm h := by
  have hmain1 : (getTopActivities count h).1 = (drain actLt h).take count := by
    rw [getTopActivities, drainIntoAux_eq actLt h.length h [] [] (le_refl _)]
    simp
  have hdp : (drain actLt h).Perm h := drain_perm actLt h.length h rfl
  have hds : (drain actLt h).Sorted (fun a b => actLt b a = false) :=
    drain_sorted actLt actLt_asymm actLt_negtrans h.length h rfl hinv
  have hds' : (drain actLt h).Sorted (fun a b => b.priority ≤ a.priority) := by
    refine hds.imp ?_
    intro a b hab
    rw [actLt] at hab
    simp only [decide_eq_false_iff_not] at hab
    exact le_of_not_lt hab
  refine ⟨⟨drain actLt h, hdp, hds', hmain1⟩, ?_, ?_, ?_⟩
  · rw [hmain1, List.length_take, hdp.length_eq]
  · rw [hmain1]
    exact hds'.sublist (List.take_sublist count _)
  · have hmain2 : (getTopActivities count h).2.Perm h := by
      rw [getTopActivities]
      simp only []
      rw [drainIntoAux_eq actLt h.length h [] [] (le_refl _)]
      simp only []
      rw [refillAux_eq actLt _ _ _ (le_refl _)]
      refine List.Perm.trans (foldl_enqueue_perm actLt _ _) ?_
      simp only [List.nil_append]
      refine List.Perm.trans (drain_perm actLt _ _ rfl) ?_
      refine List.Perm.trans (foldl_enqueue_perm actLt _ _) ?_
      simp only [List.nil_append]
      exact hdp
    exact hmain2

/-- One directed adjacency record of the route graph (destinations.js
line 139): target vertex, raw weight, transport mode, derived cost. -/
structure Edge where
  destination : String
  weight : ℚ
  mode : String
  cost : ℚ
deriving DecidableEq

/-- The adjacency-list `Map`, insertion ordered. -/
abbrev Graph : Type := List (String × List Edge)

/-- `Graph._calculateCost` (destinations.js line 153): fixed per-mode rate
(`flight` 8, `train` 2, `bus` 1.5, `car` 3), default 5 for unknown modes,
times the distance. -/
def calculateCost (mode : String) (distance : ℚ) : ℚ :=
  (if mode = "flight" then 8
   else if mode = "train" then 2
   else if mode = "bus" then 1.5
   else if mode = "car" then 3
   else 5) * distance

/-- `Graph.addVertex` (destinations.js line 129): insert an empty adjacency
list when the key is absent. -/
def addVertex (g : Graph) (v : String) : Graph :=
  if (List.lookup v g).isSome then g else g ++ [(v, [])]

/-- The `adjacencyList.get(v).push(e)` mutation: append to the (unique)
entry of the key. -/
def adjPush : Graph → String → Edge → Graph
  | [], _, _ => []
  | (k, es) :: t, v, e =>
      if k = v then (k, es ++ [e]) :: t else (k, es) :: adjPush t v e

/-- `Graph.addEdge` (destinations.js line 135): ensure both vertices, then
push the two symmetric edge records, each with cost derived at insertion
time. -/
def addEdge (g : Graph) (v1 v2 : String) (weight : ℚ) (mode : String) : Graph :=
  let g1 := addVertex (addVertex g v1) v2
  let g2 := adjPush g1 v1 ⟨v2, weight, mode, calculateCost mode weight⟩
  adjPush g2 v2 ⟨v1, weight, mode, calculateCost mode weight⟩

/-- Frontier entry of Dijkstra's priority queue (destinations.js line 175). -/
structure DNode where
  vertex : String
  distance : WithTop ℚ
deriving DecidableEq

/-- The frontier comparator `(a, b) => a.distance - b.distance` as the test
`compare(a, b) < 0`; `⊤` models `Infinity`, and the `WithTop` order agrees
with the JS subtraction comparisons in every `Infinity` case. -/
def dLt (a b : DNode) : Bool := decide (a.distance < b.distance)

/-- Predecessor record stored at relaxation (destinations.js line 194). -/
structure PrevRec where
  vertex : String
  mode : String
  cost : ℚ
deriving DecidableEq

abbrev DistMap : Type := List (String × WithTop ℚ)

abbrev PrevMap : Type := List (String × Option PrevRec)

/-- The truthiness-guarded test `preferredMode && neighbor.mode ===
preferredMode` (destinations.js line 186). -/
def pmMatches (pm : Option String) (mode : String) : Bool :=
  match pm with
  | none => false
  | some m => !(m == "") && (mode == m)

/-- The body of the neighbor relaxation loop (destinations.js line 182):
discount the traversal weight for the preferred mode, compare tentative
distances, and on improvement update distance, predecessor (with the
undiscounted stored cost) and the frontier. -/
def relaxNeighbor (pm : Option String) (cur : String)
    (st : DistMap × PrevMap × List DNode) (nb : Edge) :
    DistMap × PrevMap × List DNode :=
  let weight := if pmMatches pm nb.mode then nb.weight * 0.8 else nb.weight
  match List.lookup cur st.1, List.lookup nb.destination st.1 with
  | some dc, some dn =>
      let distance := dc + (weight : WithTop ℚ)
      if distance < dn then
        (assocSet nb.destination distance st.1,
         assocSet nb.destination (some ⟨cur, nb.mode, nb.cost⟩) st.2.1,
         enqueue dLt st.2.2 ⟨nb.destination, distance⟩)
      else st
  | _, _ => st

/-- The main loop of `findShortestPath` (destinations.js line 177), with
fuel; `none` only on fuel exhaustion (the JS loop has no such case). -/
def dijkstraLoop (g : Graph) (endV : String) (pm : Option String) :
    ℕ → DistMap × PrevMap × List DNode → Option (DistMap × PrevMap)
  | 0, _ => none
  | fuel + 1, st =>
      if st.2.2.length = 0 then some (st.1, st.2.1)
      else
        match dequeue dLt st.2.2 with
        | (none, _) => some (st.1, st.2.1)
        | (some cur, heap') =>
            if cur.vertex = endV then some (st.1, st.2.1)
            else
              dijkstraLoop g endV pm fuel
                (((List.lookup cur.vertex g).getD []).foldl
                  (relaxNeighbor pm cur.vertex) (st.1, st.2.1, heap'))

/-- Initialization of the distance and predecessor maps
(destinations.js line 170): every known vertex to `Infinity`/`null`, then
the start distance to 0. -/
def initDP (g : Graph) (start : String) : DistMap × PrevMap :=
  let d0 : DistMap := g.foldl (fun m p => assocSet p.1 (⊤ : WithTop ℚ) m) []
  let p0 : PrevMap := g.foldl (fun m p => assocSet p.1 none m) []
  (assocSet start ((0 : ℚ) : WithTop ℚ) d0, p0)

/-- Hop record of the reconstructed path (destinations.js line 218). -/
structure Hop where
  fromVertex : String
  toVertex : String
  mode : String
  cost : ℚ
deriving DecidableEq

/-- The walk of `_reconstructPath` (destinations.js line 215): follow
predecessor links from `end`, prepending hop records and accumulating the
stored costs; `current = null` is `none`. -/
def reconstructLoop (prev : PrevMap) :
    ℕ → Option String → List Hop → ℚ → Option (List Hop × ℚ)
  | _, none, path, total => some (path, total)
  | 0, some _, _, _ => none
  | fuel + 1, some cur, path, total =>
      match (List.lookup cur prev).join with
      | some p =>
          reconstructLoop prev fuel (some p.vertex)
            (⟨p.vertex, cur, p.mode, p.cost⟩ :: path) (total + p.cost)
      | none => reconstructLoop prev fuel none path total

/-- `Graph._reconstructPath` (destinations.js line 210). -/
def reconstructPath (prev : PrevMap) (start endV : String) (fuel : ℕ) :
    Option (List Hop × ℚ) :=
  reconstructLoop prev fuel (some endV) [] 0

/-- `Graph.findShortestPath` (destinations.js line 164). -/
def findShortestPath (fuel : ℕ) (g : Graph) (start endV : String)
    (pm : Option String) : Option (List Hop × ℚ) :=
  let dp := initDP g start
  let heap0 := enqueue dLt [] ⟨start, ((0 : ℚ) : WithTop ℚ)⟩
  match dijkstraLoop g endV pm fuel (dp.1, dp.2, heap0) with
  | none => none
  | some (_, prev) => reconstructPath prev start endV fuel

/-- The three-vertex graph of C1, built through `addEdge` with the default
mode "flight": A–B weight 10, A–C weight 1, C–B weight 1. -/
def g3 : Graph :=
  addEdge (addEdge (addEdge [] "A" "B" 10 "flight") "A" "C" 1 "flight")
    "C" "B" 1 "flight"

/-- C1: on the triangle graph whose indirect leg costs (8 + 8) undercut the
direct flight cost (80), `findShortestPath(A, B)` returns the two-hop path
A→C→B with total cost equal to the sum of the A–C and C–B edge costs, not
the direct A–B flight cost. -/
theorem C1_dijkstra_two_hop :
    findShortestPath 10 g3 "A" "B" none =
      some ([⟨"A", "C", "flight", 8⟩, ⟨"C", "B", "flight", 8⟩], 16) ∧
    (16 : ℚ) = calculateCost "flight" 1 + calculateCost "flight" 1 ∧
    (16 : ℚ) ≠ calculateCost "flight" 10 := by
  refine ⟨?_, by with_unfolding_all decide, by with_unfolding_all decide⟩
  with_unfolding_all decide

theorem C9_top_activities_nondestructive_witness :
    (∃ full : List Activity,
      full.Perm [⟨"Beach hopping", "Goa", 99⟩, ⟨"Taj Mahal", "Agra", 97⟩] ∧
      full.Sorted (fun a b => b.priority ≤ a.priority) ∧
      (getTopActivities 1
        [⟨"Beach hopping", "Goa", 99⟩, ⟨"Taj Mahal", "Agra", 97⟩]).1 =
          full.take 1) ∧
    (getTopActivities 1
      [⟨"Beach hopping", "Goa", 99⟩, ⟨"Taj Mahal", "Agra", 97⟩]).1.length =
        min 1 ([⟨"Beach hopping", "Goa", 99⟩,
          ⟨"Taj Mahal", "Agra", 97⟩] : List Activity).length ∧
    (getTopActivities 1
      [⟨"Beach hopping", "Goa", 99⟩, ⟨"Taj Mahal", "Agra", 97⟩]).1.Sorted
        (fun a b => b.priority ≤ a.priority) ∧
    (getTopActivities 1
      [⟨"Beach hopping", "Goa", 99⟩, ⟨"Taj Mahal", "Agra", 97⟩]).2.Perm
        [⟨"Beach hopping", "Goa", 99⟩, ⟨"Taj Mahal", "Agra", 97⟩] :=
  C9_top_activities_nondestructive 1
    [⟨"Beach hopping", "Goa", 99⟩, ⟨"Taj Mahal", "Agra", 97⟩]
    (by rw [heapInv]; with_unfolding_all decide)

/-- The initial predecessor map only ever holds `null` records. -/
theorem lookup_initPrev (g : Graph) :
    ∀ (m : PrevMap) (v : String),
      (List.lookup v m = none ∨ List.lookup v m = some none) →
      List.lookup v (g.foldl (fun m p => assocSet p.1 none m) m) = none ∨
      List.lookup v (g.foldl (fun m p => assocSet p.1 none m) m) = some none := by
  induction g with
  | nil => intro m v h; exact h
  | cons p t ih =>
      intro m v h
      rw [List.foldl_cons]
      refine ih _ v ?_
      rw [lookup_assocSet]
      cases hv : (v == p.1) with
      | true => right; rfl
      | false => exact h

/-- Enqueuing into the empty frontier yields the singleton heap. -/
theorem enqueue_nil (lt : α → α → Bool) (x : α) : enqueue lt [] x = [x] := by
  rw [enqueue]
  simp only [List.nil_append, List.length_nil]
  rw [heapifyUp]

/-- C10: querying a route from a vertex to itself returns an empty hop list
with total cost 0 for every graph, start vertex and preferred mode — the
very value the unreachable case produces, so a caller cannot tell the two
apart from the result. -/
theorem C10_self_route_indistinguishable (g : Graph) (X : String)
    (pm : Option String) (fuel : ℕ) (hf : 1 ≤ fuel) :
    findShortestPath fuel g X X pm = some ([], 0) := by
  obtain ⟨f, rfl⟩ : ∃ f, fuel = f + 1 := ⟨fuel - 1, by omega⟩
  rw [findShortestPath]
  have hloop : dijkstraLoop g X pm (f + 1)
      ((initDP g X).1, (initDP g X).2,
        enqueue dLt [] ⟨X, ((0 : ℚ) : WithTop ℚ)⟩) =
      some ((initDP g X).1, (initDP g X).2) := by
    rw [enqueue_nil, dijkstraLoop]
    rw [if_neg (by simp)]
    show (if X = X then some ((initDP g X).1, (initDP g X).2)
      else dijkstraLoop g X pm f
        (((List.lookup X g).getD []).foldl (relaxNeighbor pm X)
          ((initDP g X).1, (initDP g X).2, []))) =
      some ((initDP g X).1, (initDP g X).2)
    rw [if_pos rfl]
  rw [hloop]
  show reconstructPath (initDP g X).2 X X (f + 1) = some ([], 0)
  rw [reconstructPath, reconstructLoop]
  have hprev : (List.lookup X (initDP g X).2).join = none := by
    have h0 : List.lookup X ([] : PrevMap) = none ∨
        List.lookup X ([] : PrevMap) = some none := Or.inl rfl
    rcases lookup_initPrev g [] X h0 with h | h <;>
      · show (List.lookup X (g.foldl (fun m p => assocSet p.1 none m) [])).join
          = none
        rw [h]
        rfl
  rw [hprev]
  show reconstructLoop (initDP g X).2 f none [] 0 = some ([], 0)
  rw [reconstructLoop]

/-- Closed instance of the self-route theorem on the C1 triangle graph. -/
theorem C10_self_route_indistinguishable_witness :
    findShortestPath 1 g3 "A" "A" none = some ([], 0) :=
  C10_self_route_indistinguishable g3 "A" none 1 (by decide)

/-- One-edge step between vertices of the adjacency map. -/
def EdgeStep (g : Graph) (a b : String) : Prop :=
  ∃ es e, List.lookup a g = some es ∧ e ∈ es ∧ Edge.destination e = b

/-- Reachability along stored adjacency records. -/
def Reachable (g : Graph) (a b : String) : Prop :=
  Relation.ReflTransGen (EdgeStep g) a b

/-- Invariant of the Dijkstra working state: every non-null predecessor
entry and every frontier vertex is reachable from the start. -/
abbrev ReachState (g : Graph) (s : String)
    (st : DistMap × PrevMap × List DNode) : Prop :=
  (∀ v r, List.lookup v st.2.1 = some (some r) → Reachable g s v) ∧
  (∀ n ∈ st.2.2, Reachable g s n.vertex)

/-- A relaxation step either leaves the state unchanged or rewrites the
neighbor's distance, predecessor and frontier entries. -/
theorem relaxNeighbor_cases (pm : Option String) (cur : String)
    (st : DistMap × PrevMap × List DNode) (nb : Edge) :
    relaxNeighbor pm cur st nb = st ∨
    ∃ dist : WithTop ℚ,
      relaxNeighbor pm cur st nb =
        (assocSet nb.destination dist st.1,
         assocSet nb.destination (some ⟨cur, nb.mode, nb.cost⟩) st.2.1,
         enqueue dLt st.2.2 ⟨nb.destination, dist⟩) := by
  rw [relaxNeighbor]
  cases h1 : List.lookup cur st.1 with
  | none => exact Or.inl rfl
  | some dc =>
      cases h2 : List.lookup nb.destination st.1 with
      | none => exact Or.inl rfl
      | some dn =>
          by_cases hlt : dc + (((if pmMatches pm nb.mode then nb.weight * 0.8
              else nb.weight) : ℚ) : WithTop ℚ) < dn
          · exact Or.inr ⟨_, if_pos hlt⟩
          · exact Or.inl (if_neg hlt)

theorem relaxNeighbor_reach (g : Graph) (s : String) (pm : Option String)
    (cur : String) (nb : Edge) (hnb : EdgeStep g cur nb.destination)
    (hcur : Reachable g s cur) (st : DistMap × PrevMap × List DNode)
    (hst : ReachState g s st) :
    ReachState g s (relaxNeighbor pm cur st nb) := by
  rcases relaxNeighbor_cases pm cur st nb with h | ⟨dist, h⟩
  · rw [h]; exact hst
  · rw [h]
    constructor
    · intro v r hv
      rw [lookup_assocSet] at hv
      by_cases hveq : (v == nb.destination) = true
      · have hv2 : v = nb.destination := eq_of_beq hveq
        subst hv2
        exact Relation.ReflTransGen.tail hcur hnb
      · rw [if_neg hveq] at hv
        exact hst.1 v r hv
    · intro n hn
      have hn2 : n ∈ ⟨nb.destination, dist⟩ :: st.2.2 :=
        (enqueue_perm dLt st.2.2 ⟨nb.destination, dist⟩).subset hn
      rcases List.mem_cons.mp hn2 with rfl | h0
      · exact Relation.ReflTransGen.tail hcur hnb
      · exact hst.2 n h0

theorem relaxFold_reach (g : Graph) (s : String) (pm : Option String)
    (cur : String) (es : List Edge) (hes : List.lookup cur g = some es)
    (hcur : Reachable g s cur) :
    ∀ (l : List Edge), (∀ e ∈ l, e ∈ es) →
      ∀ st, ReachState g s st →
        ReachState g s (l.foldl (relaxNeighbor pm cur) st) := by
  intro l
  induction l with
  | nil => intro _ st hst; exact hst
  | cons e t ih =>
      intro hsub st hst
      rw [List.foldl_cons]
      refine ih (fun x hx => hsub x (List.mem_cons_of_mem e hx)) _ ?_
      exact relaxNeighbor_reach g s pm cur e
        ⟨es, e, hes, hsub e (List.mem_cons_self e t), rfl⟩ hcur st hst

/-- The main loop only records reachable predecessors. -/
theorem dijkstraLoop_reach (g : Graph) (s endV : String) (pm : Option String) :
    ∀ (fuel : ℕ) (st : DistMap × PrevMap × List DNode), ReachState g s st →
      ∀ d p, dijkstraLoop g endV pm fuel st = some (d, p) →
        ∀ v r, List.lookup v p = some (some r) → Reachable g s v := by
  intro fuel
  induction fuel with
  | zero =>
      intro st hst d p hrun
      rw [dijkstraLoop] at hrun
      exact Option.noConfusion hrun
  | succ fuel ih =>
      intro st hst d p hrun
      obtain ⟨dm, pv, hp⟩ := st
      rw [dijkstraLoop] at hrun
      have hrun2 : (if hp.length = 0 then some (dm, pv)
          else match dequeue dLt hp with
          | (none, _) => some (dm, pv)
          | (some cur, heap') =>
              if cur.vertex = endV then some (dm, pv)
              else dijkstraLoop g endV pm fuel
                (((List.lookup cur.vertex g).getD []).foldl
                  (relaxNeighbor pm cur.vertex) (dm, pv, heap'))) =
          some (d, p) := hrun
      by_cases hlen : hp.length = 0
      · rw [if_pos hlen] at hrun2
        have hpe := Option.some.inj hrun2
        intro v r hv
        have hpv : pv = p := congrArg Prod.snd hpe
        rw [← hpv] at hv
        exact hst.1 v r hv
      · rw [if_neg hlen] at hrun2
        obtain ⟨x, t, rfl⟩ : ∃ x t, hp = x :: t := by
          cases hp with
          | nil => exact absurd rfl hlen
          | cons a b => exact ⟨a, b, rfl⟩
        obtain ⟨a, h', hd⟩ := dequeue_cons_some dLt x t
        rw [hd] at hrun2
        have hrun3 : (if a.vertex = endV then some (dm, pv)
            else dijkstraLoop g endV pm fuel
              (((List.lookup a.vertex g).getD []).foldl
                (relaxNeighbor pm a.vertex) (dm, pv, h'))) = some (d, p) :=
          hrun2
        have hcur : Reachable g s a.vertex := by
          apply hst.2
          exact List.getElem?_mem (dequeue_fst_root dLt (x :: t) a h' hd)
        by_cases hend : a.vertex = endV
        · rw [if_pos hend] at hrun3
          have hpe := Option.some.inj hrun3
          intro v r hv
          have hpv : pv = p := congrArg Prod.snd hpe
          rw [← hpv] at hv
          exact hst.1 v r hv
        · rw [if_neg hend] at hrun3
          have hstate : ReachState g s (dm, pv, h') := by
            constructor
            · exact hst.1
            · intro n hn
              apply hst.2
              exact (dequeue_perm dLt (x :: t) a h' hd).subset
                (List.mem_cons_of_mem a hn)
          cases hlk : List.lookup a.vertex g with
          | none =>
              rw [hlk] at hrun3
              have hrun4 : dijkstraLoop g endV pm fuel (dm, pv, h') =
                  some (d, p) := hrun3
              exact ih _ hstate d p hrun4
          | some es =>
              rw [hlk] at hrun3
              have hrun4 : dijkstraLoop g endV pm fuel
                  (es.foldl (relaxNeighbor pm a.vertex) (dm, pv, h')) =
                  some (d, p) := hrun3
              exact ih _ (relaxFold_reach g s pm a.vertex es hlk hcur es
                (fun _ hx => hx) _ hstate) d p hrun4

/-- C7: when the destination is unreachable from the start, any successful
run of `findShortestPath` returns the empty hop list with total cost 0. -/
theorem C7_unreachable_empty_route (g : Graph) (s e : String)
    (pm : Option String) (hur : ¬ Reachable g s e) (fuel : ℕ)
    (res : List Hop × ℚ)
    (hrun : findShortestPath fuel g s e pm = some res) :
    res = ([], 0) := by
  rw [findShortestPath] at hrun
  cases hloop : dijkstraLoop g e pm fuel
      ((initDP g s).1, (initDP g s).2,
        enqueue dLt [] ⟨s, ((0 : ℚ) : WithTop ℚ)⟩) with
  | none => rw [hloop] at hrun; exact Option.noConfusion hrun
  | some dp =>
      rw [hloop] at hrun
      obtain ⟨d, p⟩ := dp
      have hinit : ReachState g s ((initDP g s).1, (initDP g s).2,
          enqueue dLt [] ⟨s, ((0 : ℚ) : WithTop ℚ)⟩) := by
        constructor
        · intro v r hv
          have h0 : List.lookup v ([] : PrevMap) = none ∨
              List.lookup v ([] : PrevMap) = some none := Or.inl rfl
          have h1 := lookup_initPrev g [] v h0
          have hv2 : List.lookup v
              (g.foldl (fun m p => assocSet p.1 none m) []) =
              some (some r) := hv
          rcases h1 with h | h
          · rw [h] at hv2
            exact Option.noConfusion hv2
          · rw [h] at hv2
            exact Option.noConfusion (Option.some.inj hv2)
        · intro n hn
          rw [enqueue_nil] at hn
          rcases List.mem_cons.mp hn with rfl | h0
          · exact Relation.ReflTransGen.refl
          · exact absurd h0 (List.not_mem_nil n)
      have hreach := dijkstraLoop_reach g s e pm fuel _ hinit d p hloop
      have hnp : (List.lookup e p).join = none := by
        cases hlk : List.lookup e p with
        | none => rfl
        | some o =>
            cases o with
            | none => rfl
            | some r => exact absurd (hreach e r hlk) hur
      cases fuel with
      | zero =>
          rw [dijkstraLoop] at hloop
          exact Option.noConfusion hloop
      | succ f =>
          have hrp : reconstructPath p s e (f + 1) = some res := hrun
          rw [reconstructPath, reconstructLoop, hnp] at hrp
          have hrun3 : reconstructLoop p f none [] 0 = some res := hrp
          rw [reconstructLoop] at hrun3
          exact (Option.some.inj hrun3).symm

/-- Two disconnected car edges: A–B and C–D. -/
def gDisc : Graph := addEdge (addEdge [] "A" "B" 1 "car") "C" "D" 1 "car"

/-- On the disconnected graph, C is unreachable from A and the query indeed
returns `([], 0)`. -/
theorem C7_unreachable_empty_route_witness :
    (¬ Reachable gDisc "A" "C") ∧
    findShortestPath 10 gDisc "A" "C" none = some ([], 0) ∧
    (([], 0) : List Hop × ℚ) = ([], 0) := by
  have hur : ¬ Reachable gDisc "A" "C" := by
    intro h
    have hmem : ∀ v, Reachable gDisc "A" v → v = "A" ∨ v = "B" := by
      intro v hv
      induction hv with
      | refl => exact Or.inl rfl
      | tail _ hbc ihv =>
          rename_i b c
          obtain ⟨es, ed, hlk, hee, hde⟩ := hbc
          rcases ihv with rfl | rfl
          · have h2 : List.lookup "A" gDisc =
                some [⟨"B", 1, "car", calculateCost "car" 1⟩] := by
              with_unfolding_all decide
            have hes : es = [⟨"B", 1, "car", calculateCost "car" 1⟩] :=
              Option.some.inj (hlk.symm.trans h2)
            subst hes
            have he : ed = ⟨"B", 1, "car", calculateCost "car" 1⟩ := by
              simpa using hee
            right
            rw [← hde, he]
          · have h2 : List.lookup "B" gDisc =
                some [⟨"A", 1, "car", calculateCost "car" 1⟩] := by
              with_unfolding_all decide
            have hes : es = [⟨"A", 1, "car", calculateCost "car" 1⟩] :=
              Option.some.inj (hlk.symm.trans h2)
            subst hes
            have he : ed = ⟨"A", 1, "car", calculateCost "car" 1⟩ := by
              simpa using hee
            left
            rw [← hde, he]
    rcases hmem "C" h with hc | hc <;> exact absurd hc (by decide)
  have hrun : findShortestPath 10 gDisc "A" "C" none = some ([], 0) := by
    with_unfolding_all decide
  exact ⟨hur, hrun,
    C7_unreachable_empty_route gDisc "A" "C" none hur 10 ([], 0) hrun⟩

/-- Every stored edge record carries the cost derived from its own mode and
weight by `_calculateCost`. -/
def WellFormedGraph (g : Graph) : Prop :=
  ∀ p ∈ g, ∀ ed ∈ p.2, ed.cost = calculateCost ed.mode ed.weight

/-- Every non-null predecessor entry comes from an actual adjacency record,
with the record's own (undiscounted) mode and cost. -/
abbrev PrevOK (g : Graph) (pv : PrevMap) : Prop :=
  ∀ v r, List.lookup v pv = some (some r) →
    ∃ es ed, List.lookup r.vertex g = some es ∧ ed ∈ es ∧
      ed.destination = v ∧ ed.mode = r.mode ∧ ed.cost = r.cost

theorem relaxNeighbor_prevOK (g : Graph) (pm : Option String) (cur : String)
    (nb : Edge) (hnb : ∃ es, List.lookup cur g = some es ∧ nb ∈ es)
    (st : DistMap × PrevMap × List DNode) (hst : PrevOK g st.2.1) :
    PrevOK g (relaxNeighbor pm cur st nb).2.1 := by
  rcases relaxNeighbor_cases pm cur st nb with h | ⟨dist, h⟩
  · rw [h]; exact hst
  · rw [h]
    intro v r hv
    rw [lookup_assocSet] at hv
    by_cases hveq : (v == nb.destination) = true
    · rw [if_pos hveq] at hv
      have hr : (⟨cur, nb.mode, nb.cost⟩ : PrevRec) = r :=
        Option.some.inj (Option.some.inj hv)
      obtain ⟨es, hes, hmem⟩ := hnb
      have hvd : v = nb.destination := eq_of_beq hveq
      subst hvd
      refine ⟨es, nb, ?_, hmem, rfl, ?_, ?_⟩
      · rw [← hr]; exact hes
      · rw [← hr]
      · rw [← hr]
    · rw [if_neg hveq] at hv
      exact hst v r hv

theorem relaxFold_prevOK (g : Graph) (pm : Option String) (cur : String)
    (es : List Edge) (hes : List.lookup cur g = some es) :
    ∀ (l : List Edge), (∀ e ∈ l, e ∈ es) →
      ∀ st, PrevOK g st.2.1 →
        PrevOK g ((l.foldl (relaxNeighbor pm cur) st)).2.1 := by
  intro l
  induction l with
  | nil => intro _ st hst; exact hst
  | cons e t ih =>
      intro hsub st hst
      rw [List.foldl_cons]
      refine ih (fun x hx => hsub x (List.mem_cons_of_mem e hx)) _ ?_
      exact relaxNeighbor_prevOK g pm cur e
        ⟨es, hes, hsub e (List.mem_cons_self e t)⟩ st hst

/-- The main loop only records predecessors backed by adjacency edges. -/
theorem dijkstraLoop_prevOK (g : Graph) (endV : String) (pm : Option String) :
    ∀ (fuel : ℕ) (st : DistMap × PrevMap × List DNode), PrevOK g st.2.1 →
      ∀ d p, dijkstraLoop g endV pm fuel st = some (d, p) → PrevOK g p := by
  intro fuel
  induction fuel with
  | zero =>
      intro st hst d p hrun
      rw [dijkstraLoop] at hrun
      exact Option.noConfusion hrun
  | succ fuel ih =>
      intro st hst d p hrun
      obtain ⟨dm, pv, hp⟩ := st
      rw [dijkstraLoop] at hrun
      have hrun2 : (if hp.length = 0 then some (dm, pv)
          else match dequeue dLt hp with
          | (none, _) => some (dm, pv)
          | (some cur, heap') =>
              if cur.vertex = endV then some (dm, pv)
              else dijkstraLoop g endV pm fuel
                (((List.lookup cur.vertex g).getD []).foldl
                  (relaxNeighbor pm cur.vertex) (dm, pv, heap'))) =
          some (d, p) := hrun
      by_cases hlen : hp.length = 0
      · rw [if_pos hlen] at hrun2
        have hpv : pv = p := congrArg Prod.snd (Option.some.inj hrun2)
        rw [← hpv]
        exact hst
      · rw [if_neg hlen] at hrun2
        obtain ⟨x, t, rfl⟩ : ∃ x t, hp = x :: t := by
          cases hp with
          | nil => exact absurd rfl hlen
          | cons a b => exact ⟨a, b, rfl⟩
        obtain ⟨a, h', hd⟩ := dequeue_cons_some dLt x t
        rw [hd] at hrun2
        have hrun3 : (if a.vertex = endV then some (dm, pv)
            else dijkstraLoop g endV pm fuel
              (((List.lookup a.vertex g).getD []).foldl
                (relaxNeighbor pm a.vertex) (dm, pv, h'))) = some (d, p) :=
          hrun2
        by_cases hend : a.vertex = endV
        · rw [if_pos hend] at hrun3
          have hpv : pv = p := congrArg Prod.snd (Option.some.inj hrun3)
          rw [← hpv]
          exact hst
        · rw [if_neg hend] at hrun3
          cases hlk : List.lookup a.vertex g with
          | none =>
              rw [hlk] at hrun3
              have hrun4 : dijkstraLoop g endV pm fuel (dm, pv, h') =
                  some (d, p) := hrun3
              exact ih (dm, pv, h') hst d p hrun4
          | some es =>
              rw [hlk] at hrun3
              have hrun4 : dijkstraLoop g endV pm fuel
                  (es.foldl (relaxNeighbor pm a.vertex) (dm, pv, h')) =
                  some (d, p) := hrun3
              exact ih (es.foldl (relaxNeighbor pm a.vertex) (dm, pv, h'))
                (relaxFold_prevOK g pm a.vertex es hlk es
                  (fun _ hx => hx) (dm, pv, h') hst) d p hrun4

/-- Characterization of the reconstruction walk: it prepends hop records
drawn from the predecessor map and returns the sum of their stored costs. -/
theorem reconstructLoop_spec (prev : PrevMap) (P : Hop → Prop)
    (hP : ∀ v r, List.lookup v prev = some (some r) →
      P ⟨r.vertex, v, r.mode, r.cost⟩) :
    ∀ (fuel : ℕ) (cur : Option String) (path : List Hop) (total : ℚ)
      (res : List Hop × ℚ),
      reconstructLoop prev fuel cur path total = some res →
      ∃ newHops : List Hop, res.1 = newHops ++ path ∧
        (∀ hop ∈ newHops, P hop) ∧
        res.2 = (newHops.map Hop.cost).sum + total := by
  intro fuel
  induction fuel with
  | zero =>
      intro cur path total res hrun
      cases cur with
      | none =>
          rw [reconstructLoop] at hrun
          have h1 : path = res.1 := congrArg Prod.fst (Option.some.inj hrun)
          have h2 : total = res.2 := congrArg Prod.snd (Option.some.inj hrun)
          exact ⟨[], h1 ▸ rfl, fun hop hh => absurd hh (List.not_mem_nil hop),
            by rw [← h2]; simp⟩
      | some c =>
          rw [reconstructLoop] at hrun
          exact Option.noConfusion hrun
  | succ f ih =>
      intro cur path total res hrun
      cases cur with
      | none =>
          rw [reconstructLoop] at hrun
          have h1 : path = res.1 := congrArg Prod.fst (Option.some.inj hrun)
          have h2 : total = res.2 := congrArg Prod.snd (Option.some.inj hrun)
          exact ⟨[], h1 ▸ rfl, fun hop hh => absurd hh (List.not_mem_nil hop),
            by rw [← h2]; simp⟩
      | some c =>
          rw [reconstructLoop] at hrun
          cases hlk : (List.lookup c prev).join with
          | none =>
              rw [hlk] at hrun
              have hrun2 : reconstructLoop prev f none path total =
                  some res := hrun
              exact ih none path total res hrun2
          | some pr =>
              rw [hlk] at hrun
              have hrun2 : reconstructLoop prev f (some pr.vertex)
                  (⟨pr.vertex, c, pr.mode, pr.cost⟩ :: path)
                  (total + pr.cost) = some res := hrun
              obtain ⟨nh, h1, h2, h3⟩ := ih _ _ _ res hrun2
              refine ⟨nh ++ [⟨pr.vertex, c, pr.mode, pr.cost⟩], ?_, ?_, ?_⟩
              · rw [h1, List.append_assoc]
                rfl
              · intro hop hh
                rcases List.mem_append.mp hh with hh | hh
                · exact h2 hop hh
                · have hh2 : hop = ⟨pr.vertex, c, pr.mode, pr.cost⟩ := by
                    simpa using hh
                  subst hh2
                  refine hP c pr ?_
                  cases ho : List.lookup c prev with
                  | none =>
                      rw [ho] at hlk
                      have hlk2 : (none : Option PrevRec) = some pr := hlk
                      exact Option.noConfusion hlk2
                  | some o =>
                      cases o with
                      | none =>
                          rw [ho] at hlk
                          have hlk2 : (none : Option PrevRec) = some pr := hlk
                          exact Option.noConfusion hlk2
                      | some pq =>
                          rw [ho] at hlk
                          have hlk2 : some pq = some pr := hlk
                          exact congrArg (fun q => some (some q))
                            (Option.some.inj hlk2)
              · rw [h3]
                simp only [List.map_append, List.sum_append, List.map_cons,
                  List.map_nil, List.sum_cons, List.sum_nil]
                ring

theorem wf_addVertex (g : Graph) (v : String) (hwf : WellFormedGraph g) :
    WellFormedGraph (addVertex g v) := by
  rw [addVertex]
  by_cases hv : (List.lookup v g).isSome
  · rw [if_pos hv]; exact hwf
  · rw [if_neg hv]
    intro p hp ed hed
    rcases List.mem_append.mp hp with hp | hp
    · exact hwf p hp ed hed
    · have hp2 : p = (v, []) := by simpa using hp
      subst hp2
      exact absurd hed (List.not_mem_nil ed)

theorem wf_adjPush (g : Graph) (v : String) (e : Edge)
    (he : e.cost = calculateCost e.mode e.weight) (hwf : WellFormedGraph g) :
    WellFormedGraph (adjPush g v e) := by
  induction g with
  | nil => intro p hp ed hed; exact absurd hp (List.not_mem_nil p)
  | cons q t ih =>
      obtain ⟨k, es⟩ := q
      rw [adjPush]
      by_cases hk : k = v
      · rw [if_pos hk]
        intro p hp ed hed
        rcases List.mem_cons.mp hp with rfl | hp
        · rcases List.mem_append.mp hed with hed | hed
          · exact hwf (k, es) (List.mem_cons_self _ _) ed hed
          · have : ed = e := by simpa using hed
            subst this
            exact he
        · exact hwf p (List.mem_cons_of_mem _ hp) ed hed
      · rw [if_neg hk]
        intro p hp ed hed
        rcases List.mem_cons.mp hp with rfl | hp
        · exact hwf (k, es) (List.mem_cons_self _ _) ed hed
        · exact ih (fun q hq => hwf q (List.mem_cons_of_mem _ hq)) p hp ed hed

theorem wf_addEdge (g : Graph) (v1 v2 : String) (w : ℚ) (m : String)
    (hwf : WellFormedGraph g) : WellFormedGraph (addEdge g v1 v2 w m) := by
  rw [addEdge]
  exact wf_adjPush _ _ _ rfl (wf_adjPush _ _ _ rfl
    (wf_addVertex _ _ (wf_addVertex _ _ hwf)))

/-- C2: on any graph whose stored edge costs come from `_calculateCost`,
every hop of a returned route carries the cost of an actual adjacency edge,
computed from the edge's own undiscounted weight and per-mode rate —
independent of the preferred mode — and the returned total is the sum of
the hop costs; `addEdge` always derives costs that way at insertion time. -/
theorem C2_costs_undiscounted (g : Graph) (hwf : WellFormedGraph g)
    (s e : String) (pm : Option String) (fuel : ℕ) (res : List Hop × ℚ)
    (hrun : findShortestPath fuel g s e pm = some res) :
    (∀ hop ∈ res.1, ∃ es ed, List.lookup hop.fromVertex g = some es ∧
      ed ∈ es ∧ ed.destination = hop.toVertex ∧ ed.mode = hop.mode ∧
      hop.cost = ed.cost ∧ hop.cost = calculateCost ed.mode ed.weight) ∧
    res.2 = (res.1.map Hop.cost).sum ∧
    (∀ (g' : Graph) (v1 v2 : String) (w : ℚ) (m : String),
      WellFormedGraph g' → WellFormedGraph (addEdge g' v1 v2 w m)) := by
  rw [findShortestPath] at hrun
  cases hloop : dijkstraLoop g e pm fuel
      ((initDP g s).1, (initDP g s).2,
        enqueue dLt [] ⟨s, ((0 : ℚ) : WithTop ℚ)⟩) with
  | none => rw [hloop] at hrun; exact Option.noConfusion hrun
  | some dp =>
      rw [hloop] at hrun
      obtain ⟨d, p⟩ := dp
      have hrp : reconstructPath p s e fuel = some res := hrun
      have hinit : PrevOK g ((initDP g s).1, (initDP g s).2,
          enqueue dLt [] ⟨s, ((0 : ℚ) : WithTop ℚ)⟩).2.1 := by
        intro v r hv
        have h0 : List.lookup v ([] : PrevMap) = none ∨
            List.lookup v ([] : PrevMap) = some none := Or.inl rfl
        have h1 := lookup_initPrev g [] v h0
        have hv2 : List.lookup v
            (g.foldl (fun m p => assocSet p.1 none m) []) =
            some (some r) := hv
        rcases h1 with h | h
        · rw [h] at hv2
          exact Option.noConfusion hv2
        · rw [h] at hv2
          exact Option.noConfusion (Option.some.inj hv2)
      have hpok : PrevOK g p :=
        dijkstraLoop_prevOK g e pm fuel _ hinit d p hloop
      obtain ⟨nh, h1, h2, h3⟩ := reconstructLoop_spec p
        (fun hop => ∃ es ed,
          List.lookup hop.fromVertex g = some es ∧ ed ∈ es ∧
          ed.destination = hop.toVertex ∧ ed.mode = hop.mode ∧
          hop.cost = ed.cost ∧ hop.cost = calculateCost ed.mode ed.weight)
        (by
          intro v r hv
          obtain ⟨es, ed, hes, hmem, hdst, hmode, hcost⟩ := hpok v r hv
          refine ⟨es, ed, hes, hmem, hdst, hmode, hcost.symm, ?_⟩
          have hwfe := hwf (r.vertex, es) (lookup_mem hes) ed hmem
          show r.cost = calculateCost ed.mode ed.weight
          rw [← hcost]
          exact hwfe)
        fuel (some e) [] 0 res hrp
      rw [List.append_nil] at h1
      refine ⟨?_, ?_, fun g' v1 v2 w m h => wf_addEdge g' v1 v2 w m h⟩
      · intro hop hh
        exact h2 hop (h1 ▸ hh)
      · rw [h3, h1]
        simp

/-- Concrete instance: on the well-formed triangle graph the A→B route's
hops all carry edge-derived costs summing to the returned total. -/
theorem C2_costs_undiscounted_witness :
    WellFormedGraph g3 ∧
    ((∀ hop ∈ (([⟨"A", "C", "flight", 8⟩, ⟨"C", "B", "flight", 8⟩],
        (16 : ℚ)) : List Hop × ℚ).1, ∃ es ed,
        List.lookup hop.fromVertex g3 = some es ∧ ed ∈ es ∧
        ed.destination = hop.toVertex ∧ ed.mode = hop.mode ∧
        hop.cost = ed.cost ∧ hop.cost = calculateCost ed.mode ed.weight) ∧
      (([⟨"A", "C", "flight", 8⟩, ⟨"C", "B", "flight", 8⟩],
        (16 : ℚ)) : List Hop × ℚ).2 =
        ((([⟨"A", "C", "flight", 8⟩, ⟨"C", "B", "flight", 8⟩],
          (16 : ℚ)) : List Hop × ℚ).1.map Hop.cost).sum ∧
      (∀ (g' : Graph) (v1 v2 : String) (w : ℚ) (m : String),
        WellFormedGraph g' → WellFormedGraph (addEdge g' v1 v2 w m))) := by
  have hwf : WellFormedGraph g3 := by
    show ∀ p ∈ g3, ∀ ed ∈ p.2, ed.cost = calculateCost ed.mode ed.weight
    with_unfolding_all decide
  have hrun : findShortestPath 10 g3 "A" "B" none =
      some ([⟨"A", "C", "flight", 8⟩, ⟨"C", "B", "flight", 8⟩], 16) := by
    with_unfolding_all decide
  exact ⟨hwf, C2_costs_undiscounted g3 hwf "A" "B" none 10 _ hrun⟩

end TPlan
